import Mathlib

/-!
Verification of the Jup-Scout arbitrage bot core against its specification.

This file shallowly embeds the Python sources (`src/jito_client.py`,
`src/jupiter.py`, `config/settings.py`, `main.py`) in Lean 4:
pure functions become Lean functions, network I/O is abstracted into
explicit response parameters, machine floats are modelled as exact
rationals (ℚ), wall-clock time (`time.time()`) is a rational parameter,
and fallible code returns `Option`/`Except`.  Public keys are modelled
as their base58 strings (the Python code compares them as strings or by
equality only).  The behaviour of the external `solders` library used by
the repository (`MessageV0.try_compile`, `is_maybe_writable`,
`is_signer`) is embedded following its documented V0-message layout; a
doc comment on each such definition records the modelling choice.
-/

/-! ### Basic key and string helpers -/

/-- Public keys are modelled by their base58 string form, which is what
`_is_vote_account` inspects (`str(pubkey).startswith(prefix)`). -/
abbrev PKey := String

/-- `_VOTE_ACCOUNT_PREFIXES` from `src/jito_client.py`. -/
def VOTE_ACCOUNT_PREFIXES : List String :=
  ["Vote111111111111111111111111111111111111111",
   "Vote111111111111111111111111111111111111112"]

/-- `_is_vote_account` from `src/jito_client.py`: string-prefix test
(`str.startswith`) against the two vote prefixes, on the character
sequences. -/
def is_vote_account (k : PKey) : Bool :=
  VOTE_ACCOUNT_PREFIXES.any (fun p => p.data.isPrefixOf k.data)

/-- Lower-casing used to model Python `str.lower()` on error messages. -/
def lowerStr (s : String) : String := ⟨s.data.map Char.toLower⟩

/-- Substring test on char lists: some suffix of `l` starts with `pat`. -/
def charsContain (pat : List Char) : List Char → Bool
  | [] => pat.isEmpty
  | c :: t => pat.isPrefixOf (c :: t) || charsContain pat t

/-- Model of Python `pat in s` (substring containment). -/
def strContains (s pat : String) : Bool := charsContain pat.data s.data

/-- Python `int(x)` on a float/rational: truncation toward zero. -/
def pyInt (q : ℚ) : ℤ := if 0 ≤ q then ⌊q⌋ else -⌊-q⌋

/-! ### Lookup-table account parsing (`_parse_alt_addresses`, `_fetch_alt_account`) -/

/-- `_ALT_META_SIZE` from `src/jito_client.py`. -/
def ALT_META_SIZE : Nat := 56

/-- Little-endian byte-list to natural number (`int.from_bytes(_, "little")`). -/
def leBytesToNat (l : List Nat) : Nat := l.foldr (fun b acc => b + 256 * acc) 0

/-- `_parse_alt_addresses` from `src/jito_client.py`: 56-byte meta header,
4-byte little-endian count, then `32*n` bytes of addresses.  The Python
code maps each 32-byte slice through `Pubkey.from_bytes`; that external
constructor is modelled as the identity on the 32-byte chunk. -/
def parse_alt_addresses (data : List Nat) : List (List Nat) :=
  if data.length < ALT_META_SIZE + 4 then []
  else
    let n := leBytesToNat ((data.drop ALT_META_SIZE).take 4)
    let start := ALT_META_SIZE + 4
    if data.length < start + 32 * n then []
    else (List.range n).map (fun i => (data.drop (start + 32 * i)).take 32)

/-- Abstraction of the RPC response seen by `_fetch_alt_account`:
an exception anywhere in the fetch/decode (`ioError`), a missing or
empty account value (`noValue`), or decoded account bytes. -/
inductive AltFetchResp
  | ioError
  | noValue
  | accountData (data : List Nat)
deriving DecidableEq

/-- `_fetch_alt_account` from `src/jito_client.py`, with the RPC call
abstracted into the response value: every error path returns `[]`. -/
def fetch_alt_account : AltFetchResp → List (List Nat)
  | .ioError => []
  | .noValue => []
  | .accountData d => parse_alt_addresses d

/-! ### Profit model (`config/settings.py`, `JupiterClient.check_arb_opportunity`, `main`) -/

/-- `Settings.UNITS_PER_USDC`. -/
def UNITS_PER_USDC : ℚ := 1000000

/-- `Settings.FIXED_SOL_PRICE_USDC`. -/
def FIXED_SOL_PRICE_USDC : ℚ := 500

/-- `Settings.ESTIMATED_GAS_SOL` (the float 0.00002, as an exact rational). -/
def ESTIMATED_GAS_SOL : ℚ := 2 / 100000

/-- `Settings.JITO_TIP_AMOUNT_SOL` (the float 0.0001, as an exact rational). -/
def JITO_TIP_AMOUNT_SOL : ℚ := 1 / 10000

/-- `Settings.MIN_NET_PROFIT_USDC` (the float 0.01, as an exact rational). -/
def MIN_NET_PROFIT_USDC : ℚ := 1 / 100

/-- `gross_profit_usdc` computation in `check_arb_opportunity`:
`(final - invest) / UNITS_PER_USDC`. -/
def gross_profit_usdc (invest final : ℤ) : ℚ :=
  ((final : ℚ) - (invest : ℚ)) / UNITS_PER_USDC

/-- `total_cost_usdc` computation in `check_arb_opportunity`. -/
def total_cost_usdc : ℚ :=
  (JITO_TIP_AMOUNT_SOL + ESTIMATED_GAS_SOL) * FIXED_SOL_PRICE_USDC

/-- `net_profit_usdc` computation in `check_arb_opportunity`. -/
def net_profit_usdc (invest final : ℤ) : ℚ :=
  gross_profit_usdc invest final - total_cost_usdc

/-- The go/no-go gate in `main.py`:
`net_profit > settings.MIN_NET_PROFIT_USDC` (strict). -/
def main_decision (net : ℚ) : Bool := net > MIN_NET_PROFIT_USDC

/-! ### Quote chaining (`JupiterClient.check_arb_opportunity`) -/

/-- The two fields of a Jupiter quote response that
`check_arb_opportunity` reads. -/
structure QuoteResp where
  outAmount : ℤ
  otherAmountThreshold : ℤ
deriving DecidableEq

/-- One issued quote call: (input mint, output mint, amount). -/
abbrev QuoteCall := String × String × ℤ

/-- The quote-requesting loop of `check_arb_opportunity`.  The network
call `get_quote` is abstracted into the `oracle` parameter (`none`
models any failed request).  Returns the Python function's result
(`quotes` list and final amount) together with the ordered trace of the
quote calls actually issued. -/
def chain_quotes (oracle : String → String → ℤ → Option QuoteResp) :
    List String → ℤ → Option (List QuoteResp × ℤ) × List QuoteCall
  | [], amt => (some ([], amt), [])
  | [_], amt => (some ([], amt), [])
  | m1 :: m2 :: rest, amt =>
    match oracle m1 m2 amt with
    | none => (none, [(m1, m2, amt)])
    | some q =>
      let r := chain_quotes oracle (m2 :: rest) q.otherAmountThreshold
      (r.1.map (fun p => (q :: p.1, p.2)), (m1, m2, amt) :: r.2)

/-- The dictionary returned by `check_arb_opportunity` on success. -/
structure ArbResult where
  quotes : List QuoteResp
  final_usdc_units : ℤ
  gross : ℚ
  net : ℚ
deriving DecidableEq

/-- The `[settings.get_mint(s) for s in path]` comprehension together
with its surrounding `try/except ValueError` (`none` models the raised
error for an unconfigured symbol). -/
def resolveMints (getMint : String → Option String) : List String → Option (List String)
  | [] => some []
  | s :: t =>
    match getMint s, resolveMints getMint t with
    | some m, some ms => some (m :: ms)
    | _, _ => none

/-- `JupiterClient.check_arb_opportunity` from `src/jupiter.py`, with
`settings.ARB_PATH` and `settings.get_mint` passed explicitly and the
HTTP quote call abstracted into `oracle`.  Also returns the trace of
issued quote calls. -/
def check_arb_opportunity (getMint : String → Option String) (path : List String)
    (oracle : String → String → ℤ → Option QuoteResp) (invest : ℤ) :
    Option ArbResult × List QuoteCall :=
  if path.length < 2 ∨ path.headD "" ≠ "USDC" ∨ path.getLastD "" ≠ "USDC" then (none, [])
  else
    match resolveMints getMint path with
    | none => (none, [])
    | some mints =>
      match chain_quotes oracle mints invest with
      | (none, tr) => (none, tr)
      | (some (qs, fin), tr) =>
        (some { quotes := qs, final_usdc_units := fin,
                gross := gross_profit_usdc invest fin,
                net := net_profit_usdc invest fin }, tr)

/-! ### Cooldown state (`JitoClient`) -/

/-- Mutable state of `JitoClient` relevant to rate-limiting:
`_rate_limited_until` and the `_engine_cooldown` dict (modelled as a
total map with default 0, matching `dict.get(url, 0)`). -/
structure JitoState where
  rate_limited_until : ℚ
  engine_cooldown : String → ℚ

/-- `JitoClient.get_rate_limit_wait_seconds`:
`max(0, int(self._rate_limited_until - time.time()))`. -/
def rate_limit_wait_seconds (until_ now : ℚ) : ℤ :=
  max 0 (pyInt (until_ - now))

/-- The `int(float(retry_after))` parse in `_set_rate_limit_cooldown`
(0 when the header is absent or unparseable). -/
def retryAfterInt (ra : Option ℚ) : ℤ :=
  match ra with
  | none => 0
  | some r => pyInt r

/-- `JitoClient._set_rate_limit_cooldown`: returns the new
`_rate_limited_until` and the cooldown duration it reports. -/
def set_rate_limit_cooldown (until_ now : ℚ) (ra : Option ℚ) : ℚ × ℤ :=
  let cooldown : ℤ := max 45 (retryAfterInt ra)
  (max until_ (now + (cooldown : ℚ)), cooldown)

/-- `JitoClient._set_engine_cooldown` (per-endpoint): returns the new
cooldown map and the duration.  If the endpoint is already cooling
(`current > now`) the duration is `int((current - now) * 2.5)`. -/
def set_engine_cooldown (cooldownOf : String → ℚ) (url : String) (ra : Option ℚ)
    (now : ℚ) : (String → ℚ) × ℤ :=
  let base : ℤ := max 45 (retryAfterInt ra)
  let current := cooldownOf url
  let base := if current > now then pyInt ((current - now) * (5 / 2)) else base
  (fun u => if u = url then now + (base : ℚ) else cooldownOf u, base)

/-- `JitoClient._set_all_engines_cooldown`: global cooldown via
`_set_rate_limit_cooldown`, then every configured engine URL gets the
same `end_time`.  Both `time.time()` reads inside the Python call are
modelled by the single parameter `now` (they occur microseconds apart). -/
def set_all_engines_cooldown (st : JitoState) (urls : List String) (ra : Option ℚ)
    (now : ℚ) : JitoState × ℤ :=
  let r := set_rate_limit_cooldown st.rate_limited_until now ra
  let endTime := now + (r.2 : ℚ)
  ({ rate_limited_until := r.1,
     engine_cooldown := fun u => if u ∈ urls then endTime else st.engine_cooldown u },
   r.2)

/-! ### Transaction message model (solders structures used by the repository) -/

/-- Message header of a Solana message (three counts), as exposed by
`solders`. -/
structure MsgHeader where
  num_required_signatures : Nat
  num_readonly_signed_accounts : Nat
  num_readonly_unsigned_accounts : Nat
deriving DecidableEq

/-- A compiled instruction: program id index, account indices, opaque
data bytes. -/
structure CompiledIx where
  program_id_index : Nat
  accounts : List Nat
  data : List Nat
deriving DecidableEq

/-- One `MessageAddressTableLookup` of a V0 message. -/
structure TableLookup where
  account_key : PKey
  writable_indexes : List Nat
  readonly_indexes : List Nat
deriving DecidableEq

/-- A `MessageV0`. -/
structure MsgV0 where
  header : MsgHeader
  account_keys : List PKey
  recent_blockhash : String
  instructions : List CompiledIx
  address_table_lookups : List TableLookup
deriving DecidableEq

/-- A legacy `Message` (no lookup tables). -/
structure MsgLegacy where
  header : MsgHeader
  account_keys : List PKey
  recent_blockhash : String
  instructions : List CompiledIx
deriving DecidableEq

/-- A versioned message, as obtained from
`VersionedTransaction.from_bytes(...).message`. -/
inductive VMsg
  | legacy (m : MsgLegacy)
  | v0 (m : MsgV0)
deriving DecidableEq

/-- Static-account writability per the V0 message layout: writable
signers come first, then readonly signers, then writable non-signers,
then readonly non-signers.  Models the solders
`is_maybe_writable(index)` header rule for static keys (the extra
reserved-account demotions of the library are not modelled; none of the
keys the repository handles fall in that class). -/
def isWritableIndex (h : MsgHeader) (len i : Nat) : Bool :=
  decide (i < h.num_required_signatures - h.num_readonly_signed_accounts) ||
    (decide (h.num_required_signatures ≤ i) && decide (i < len - h.num_readonly_unsigned_accounts))

/-- Models solders `Message.is_signer(index)` for static keys. -/
def isSignerIndex (h : MsgHeader) (i : Nat) : Bool :=
  decide (i < h.num_required_signatures)

/-- Account keys of either message flavour (`msg.account_keys`). -/
def VMsg.staticKeys : VMsg → List PKey
  | .legacy m => m.account_keys
  | .v0 m => m.account_keys

/-- Header of either message flavour. -/
def VMsg.msgHeader : VMsg → MsgHeader
  | .legacy m => m.header
  | .v0 m => m.header

/-- Recent blockhash (recency token) of either message flavour. -/
def VMsg.blockhash : VMsg → String
  | .legacy m => m.recent_blockhash
  | .v0 m => m.recent_blockhash

/-- `AccountMeta` from solders. -/
structure AcctMeta where
  pubkey : PKey
  is_signer : Bool
  is_writable : Bool
deriving DecidableEq

/-- A plain (decompiled) `Instruction`. -/
structure Ix where
  program_id : PKey
  data : List Nat
  accounts : List AcctMeta
deriving DecidableEq

/-- An `AddressLookupTableAccount` passed to `try_compile`. -/
structure ALTAccount where
  key : PKey
  addresses : List PKey
deriving DecidableEq

/-- `_build_full_account_keys_and_alt_accounts` from
`src/jito_client.py`.  `altMap` is the `alt_addresses_by_key` dict
(`dict.get(key) or []` is a total map with default `[]`).  Returns the
full key list, the `AddressLookupTableAccount` list, and the
`is_writable_by_index` dict, the latter as a `List Bool` parallel to
the full key list (the dict's domain is exactly the built indices, in
order). -/
def build_full_accounts (m : MsgV0) (altMap : PKey → List PKey) :
    List PKey × List ALTAccount × List Bool :=
  let staticW := (List.range m.account_keys.length).map
    (fun i => isWritableIndex m.header m.account_keys.length i)
  m.address_table_lookups.foldl
    (fun acc l =>
      let addrs := altMap l.account_key
      let wKeys := (l.writable_indexes.filter (fun i => i < addrs.length)).map
        (fun i => addrs.getD i "")
      let rKeys := (l.readonly_indexes.filter (fun i => i < addrs.length)).map
        (fun i => addrs.getD i "")
      (acc.1 ++ wKeys ++ rKeys,
       acc.2.1 ++ [⟨l.account_key, addrs⟩],
       acc.2.2 ++ wKeys.map (fun _ => true) ++ rKeys.map (fun _ => false)))
    (m.account_keys, [], staticW)

/-- `_decompile_to_instructions` from `src/jito_client.py`: walk the
compiled instructions, skip any whose program index is out of range,
skip account indices out of range, force vote accounts readonly. -/
def decompile_to_instructions (m : MsgV0) (full_keys : List PKey) (wfl : List Bool) :
    List Ix :=
  m.instructions.filterMap fun ci =>
    if ci.program_id_index < full_keys.length then
      some { program_id := full_keys.getD ci.program_id_index "",
             data := ci.data,
             accounts := ci.accounts.filterMap fun i =>
               if i < full_keys.length then
                 let k := full_keys.getD i ""
                 some { pubkey := k,
                        is_signer := decide (i < m.account_keys.length) &&
                          isSignerIndex m.header i,
                        is_writable := if is_vote_account k then false else wfl.getD i false }
               else none }
    else none

/-! ### Model of the external `MessageV0.try_compile` (solders) -/

/-- Merged per-key metadata collected by the library's `CompiledKeys`. -/
structure CKMeta where
  is_signer : Bool
  is_writable : Bool
  is_invoked : Bool
deriving DecidableEq

/-- Insert-or-update in an association list, preserving entry order
(models the library's key→meta map; map order inside each privilege
section is not relied upon by any theorem below). -/
def upsertCK (k : PKey) (f : CKMeta → CKMeta) :
    List (PKey × CKMeta) → List (PKey × CKMeta)
  | [] => [(k, f ⟨false, false, false⟩)]
  | e :: t => if e.1 = k then (e.1, f e.2) :: t else e :: upsertCK k f t

/-- Collect one instruction's keys: the program id is marked invoked,
each account meta ORs its signer/writable flags into the map. -/
def addIxKeys (l : List (PKey × CKMeta)) (ix : Ix) : List (PKey × CKMeta) :=
  ix.accounts.foldl
    (fun l a => upsertCK a.pubkey
      (fun c => { c with is_signer := c.is_signer || a.is_signer,
                         is_writable := c.is_writable || a.is_writable }) l)
    (upsertCK ix.program_id (fun c => { c with is_invoked := true }) l)

/-- The library's `CompiledKeys::compile`: the fee payer is a writable
signer, then every instruction's keys are merged in. -/
def compile_keys (payer : PKey) (instrs : List Ix) : List (PKey × CKMeta) :=
  instrs.foldl addIxKeys [(payer, ⟨true, true, false⟩)]

/-- Index of the first occurrence of a key in a list (length if absent). -/
def keyIdx (k : PKey) : List PKey → Nat
  | [] => 0
  | h :: t => if h = k then 0 else keyIdx k t + 1

/-- Accumulator for draining lookup-table keys during `try_compile`. -/
structure DrainAcc where
  rest : List (PKey × CKMeta)
  lookups : List TableLookup
  wkeys : List PKey
  rkeys : List PKey

/-- The library's `try_extract_table_lookup`: non-signer, non-invoked
keys found in the given table are drained out of the static set, the
writable ones and readonly ones separately; an all-empty extraction
adds no lookup entry. -/
def drainTable (acc : DrainAcc) (alt : ALTAccount) : DrainAcc :=
  let wd := acc.rest.filter fun e =>
    !e.2.is_signer && !e.2.is_invoked && e.2.is_writable && decide (e.1 ∈ alt.addresses)
  let rd := acc.rest.filter fun e =>
    !e.2.is_signer && !e.2.is_invoked && !e.2.is_writable && decide (e.1 ∈ alt.addresses)
  if wd.isEmpty && rd.isEmpty then acc
  else
    { rest := acc.rest.filter fun e =>
        !(!e.2.is_signer && !e.2.is_invoked && decide (e.1 ∈ alt.addresses)),
      lookups := acc.lookups ++
        [⟨alt.key, wd.map (fun e => keyIdx e.1 alt.addresses),
          rd.map (fun e => keyIdx e.1 alt.addresses)⟩],
      wkeys := acc.wkeys ++ wd.map (fun e => e.1),
      rkeys := acc.rkeys ++ rd.map (fun e => e.1) }

/-- Model of the external `MessageV0.try_compile(payer, instructions,
address_lookup_table_accounts, recent_blockhash)`: merge keys, drain
lookup-table keys, lay out the remaining static keys in the canonical
V0 privilege sections, and recompile every instruction against the
combined (static ++ loaded-writable ++ loaded-readonly) index space.
Compilation fails (the library raises) when more than 256 keys are
needed; finer library failure modes are not modelled. -/
def try_compile (payer : PKey) (instrs : List Ix) (alts : List ALTAccount)
    (bh : String) : Option MsgV0 :=
  let km := compile_keys payer instrs
  let d := alts.foldl drainTable ⟨km, [], [], []⟩
  let ws := d.rest.filter fun e => e.2.is_signer && e.2.is_writable
  let rs := d.rest.filter fun e => e.2.is_signer && !e.2.is_writable
  let wn := d.rest.filter fun e => !e.2.is_signer && e.2.is_writable
  let rn := d.rest.filter fun e => !e.2.is_signer && !e.2.is_writable
  let statics := (ws ++ rs ++ wn ++ rn).map (fun e => e.1)
  let fullOrder := statics ++ d.wkeys ++ d.rkeys
  if fullOrder.length ≤ 256 then
    some { header := ⟨ws.length + rs.length, rs.length, rn.length⟩,
           account_keys := statics,
           recent_blockhash := bh,
           instructions := instrs.map fun ix =>
             { program_id_index := keyIdx ix.program_id fullOrder,
               accounts := ix.accounts.map fun a => keyIdx a.pubkey fullOrder,
               data := ix.data },
           address_table_lookups := d.lookups }
  else none

/-! ### Message rebuild and bundle construction (`JitoClient.send_bundle`) -/

/-- `_rebuild_message_with_blockhash_async` from `src/jito_client.py`,
with the ALT fetches abstracted into `altMap` (the per-attempt
`alt_addresses_by_key` dict).  A non-V0 message is returned unchanged;
a V0 message is decompiled and recompiled, and the attempt errors if no
instruction can be reconstructed or recompilation fails.  An empty
static key list also errors (`msg.account_keys[0]` raises in Python). -/
def rebuild_message (bh : String) (altMap : PKey → List PKey) :
    VMsg → Except Unit VMsg
  | .legacy lm => .ok (.legacy lm)
  | .v0 m =>
    match m.account_keys with
    | [] => .error ()
    | payer :: _ =>
      let b := build_full_accounts m altMap
      let instrs := decompile_to_instructions m b.1 b.2.2
      if instrs.isEmpty then .error ()
      else
        match try_compile payer instrs b.2.1 bh with
        | none => .error ()
        | some m2 => .ok (.v0 m2)

/-- System program id used by the tip transfer. -/
def SYSTEM_PROGRAM_ID : PKey := "11111111111111111111111111111111"

/-- Little-endian fixed-width byte encoding. -/
def natToLeBytes (width n : Nat) : List Nat :=
  (List.range width).map (fun i => n / 256 ^ i % 256)

/-- The solders `transfer(TransferParams(...))` instruction: funder is
a writable signer, recipient is writable, with the system-program
transfer tag and a u64 lamports amount. -/
def transfer_ix (from_ to_ : PKey) (lamports : Nat) : Ix :=
  { program_id := SYSTEM_PROGRAM_ID,
    data := natToLeBytes 4 2 ++ natToLeBytes 8 lamports,
    accounts := [⟨from_, true, true⟩, ⟨to_, false, true⟩] }

/-- `int(self.tip_amount * 10**9)` with `tip_amount = JITO_TIP_AMOUNT_SOL`. -/
def tip_lamports : Nat := (pyInt (JITO_TIP_AMOUNT_SOL * 10 ^ 9)).toNat

/-- The `for ... in additional_txs` rebuild loop of `send_bundle`:
each additional transaction must decode and rebuild; any failure aborts
(`return None`). -/
def rebuild_all (bh : String) (altMap : PKey → List PKey) :
    List (Option VMsg) → Option (List VMsg)
  | [] => some []
  | none :: _ => none
  | some t :: rest =>
    match rebuild_message bh altMap t with
    | .error _ => none
    | .ok tr => (rebuild_all bh altMap rest).map (fun l => tr :: l)

/-- The bundle-construction phase of `JitoClient.send_bundle` (steps 1-3
of the Python code): rebuild the first swap transaction and every
additional transaction against the single blockhash `bh`, then append
the tip transaction compiled against the same blockhash.  `firstTx` and
each element of `addl` are the decoded messages (`none` models a
base64/parse failure); `tipAcct` is the chosen tip account (`none`
models no parseable tip account).  Any failure aborts the whole
construction (`None` in Python). -/
def build_bundle (bh : String) (payer : PKey) (tipAcct : Option PKey)
    (firstTx : Option VMsg) (addl : List (Option VMsg))
    (altMap : PKey → List PKey) : Option (List VMsg) :=
  match firstTx with
  | none => none
  | some t1 =>
    match rebuild_message bh altMap t1 with
    | .error _ => none
    | .ok t1r =>
      match rebuild_all bh altMap addl with
      | none => none
      | some addlr =>
        match tipAcct with
        | none => none
        | some tip =>
          match try_compile payer [transfer_ix payer tip tip_lamports] [] bh with
          | none => none
          | some tipMsg => some (t1r :: (addlr ++ [.v0 tipMsg]))

/-- The vote-account validation (step 4.1 of `send_bundle`): scan each
transaction's static `account_keys` and reject if any vote account is
maybe-writable. -/
def tx_locks_vote_account (t : VMsg) : Bool :=
  (List.range t.staticKeys.length).any fun i =>
    is_vote_account (t.staticKeys.getD i "") &&
      isWritableIndex t.msgHeader t.staticKeys.length i

/-- Bundle-level guard: Python returns on the first offending
transaction; the result only depends on whether some member offends. -/
def bundle_locks_vote_account (b : List VMsg) : Bool :=
  b.any tx_locks_vote_account

/-- The full resolved account list of a transaction that ends up
write-locked, per the claim's wording: static maybe-writable keys plus
the lookup-resolved addresses referenced through `writable_indexes`,
resolved against the same table contents (`altMap`) the construction
used.  This definition follows the specification's words and is the
yardstick the guard is measured against. -/
def final_writable_accounts (altMap : PKey → List PKey) : VMsg → List PKey
  | .legacy lm =>
    (List.range lm.account_keys.length).filterMap fun i =>
      if isWritableIndex lm.header lm.account_keys.length i then
        some (lm.account_keys.getD i "")
      else none
  | .v0 m =>
    ((List.range m.account_keys.length).filterMap fun i =>
      if isWritableIndex m.header m.account_keys.length i then
        some (m.account_keys.getD i "")
      else none) ++
    m.address_table_lookups.flatMap fun l =>
      l.writable_indexes.filterMap fun i => (altMap l.account_key).get? i

/-! ### Endpoint submission loop (`send_bundle` steps 5-6) -/

/-- One relay endpoint's response: HTTP status, optional JSON-RPC
error message, optional `result` (bundle id), optional Retry-After. -/
structure EngineResp where
  status : Nat
  error : Option String
  result : Option String
  retryAfter : Option ℚ
deriving DecidableEq

/-- Rate-limit test on an embedded error message:
`"429" in msg.lower() or "rate" in msg.lower()`. -/
def is_rate_limit_msg (m : String) : Bool :=
  strContains (lowerStr m) "429" || strContains (lowerStr m) "rate"

/-- Vote-lock test on an embedded error message:
`"vote" in msg.lower() or "lock" in msg.lower()`. -/
def is_vote_lock_msg (m : String) : Bool :=
  strContains (lowerStr m) "vote" || strContains (lowerStr m) "lock"

/-- Result of the endpoint loop, carrying the list of endpoints
actually contacted. -/
inductive LoopResult
  | accepted (bundleId : String) (contacted : List String)
  | voteLocked (contacted : List String)
  | rateLimited (raHdr : Option ℚ) (contacted : List String)
  | allFailed (contacted : List String)

/-- The endpoint iteration of `send_bundle` (step 6): skip endpoints
still cooling, POST to the rest in priority order; 429 or a rate/limit
error message sets the rate-limited flag and moves on; a vote/lock
error message is terminal; a 200 with a `result` is accepted. -/
def submit_loop (resp : String → EngineResp) (cooldownOf : String → ℚ) (now : ℚ) :
    List String → Bool → Option ℚ → List String → LoopResult
  | [], gotRL, raHdr, contacted =>
    if gotRL then .rateLimited raHdr contacted else .allFailed contacted
  | url :: rest, gotRL, raHdr, contacted =>
    if now < cooldownOf url then
      submit_loop resp cooldownOf now rest gotRL raHdr contacted
    else
      let r := resp url
      let contacted := contacted ++ [url]
      if r.status = 429 then
        submit_loop resp cooldownOf now rest true (raHdr <|> r.retryAfter) contacted
      else
        match r.error with
        | some e =>
          if is_rate_limit_msg e then
            submit_loop resp cooldownOf now rest true raHdr contacted
          else if is_vote_lock_msg e then .voteLocked contacted
          else submit_loop resp cooldownOf now rest gotRL raHdr contacted
        | none =>
          if r.status ≠ 200 then
            submit_loop resp cooldownOf now rest gotRL raHdr contacted
          else
            match r.result with
            | some bid => .accepted bid contacted
            | none => submit_loop resp cooldownOf now rest gotRL raHdr contacted

/-- Terminal outcome of one `send_bundle` call.  Python returns the
string `"RATE_LIMITED"` both at the entry gate and after a rate-limited
loop; both are the single `rateLimited` constructor. -/
inductive SendOutcome
  | rateLimited
  | failed
  | voteLocked
  | accepted (bundleId : String)
deriving DecidableEq

/-- Everything one `send_bundle` call produces: the outcome, the state
afterwards, the constructed bundle (down from step 3) if construction
succeeded, and the endpoints contacted. -/
structure SendResult where
  outcome : SendOutcome
  state : JitoState
  bundle : Option (List VMsg)
  contacted : List String

/-- `JitoClient.send_bundle`, end to end: the global-cooldown gate, the
single blockhash `bh` fetched once and used for every member, bundle
construction, the vote-account guard (before serialization), and the
endpoint loop; a rate-limited loop applies the global cooldown to all
endpoints.  Wire serialization is length/order-preserving and is not
further modelled. -/
def send_bundle_full (st : JitoState) (now : ℚ) (bh : String) (payer : PKey)
    (tipAcct : Option PKey) (firstTx : Option VMsg) (addl : List (Option VMsg))
    (altMap : PKey → List PKey) (engines : List String)
    (resp : String → EngineResp) : SendResult :=
  if 0 < rate_limit_wait_seconds st.rate_limited_until now then
    ⟨.rateLimited, st, none, []⟩
  else
    match build_bundle bh payer tipAcct firstTx addl altMap with
    | none => ⟨.failed, st, none, []⟩
    | some b =>
      if bundle_locks_vote_account b then ⟨.voteLocked, st, some b, []⟩
      else
        match submit_loop resp st.engine_cooldown now engines false none [] with
        | .accepted bid c => ⟨.accepted bid, st, some b, c⟩
        | .voteLocked c => ⟨.voteLocked, st, some b, c⟩
        | .rateLimited ra c =>
          ⟨.rateLimited, (set_all_engines_cooldown st engines ra now).1, some b, c⟩
        | .allFailed c => ⟨.failed, st, some b, c⟩

/-! ### Swap-transaction screening (`JupiterClient`, `main`) -/

/-- `ATA_PROGRAM_ID` from `src/jupiter.py`. -/
def ATA_PROGRAM_ID : PKey := "ATokenGPvbdGVxr1b2hvZbsiqW5xWH25efTNsLJA8knL"

/-- `TOKEN_PROGRAM_ID` from `src/jupiter.py`. -/
def TOKEN_PROGRAM_ID : PKey := "TokenkegQfeZyiNwAJbNbGKPFXCWuBvf9Ss623VQ5DA"

/-- `TOKEN_CLOSE_ACCOUNT_DISCRIMINATOR` from `src/jupiter.py`. -/
def TOKEN_CLOSE_ACCOUNT_DISCRIMINATOR : Nat := 9

/-- Core of `JupiterClient.swap_tx_has_ata_create_or_close`, on the
decoded message (the base64/bincode decode is abstracted; a decode
failure or a non-V0 message returns `False` in Python). -/
def msg_has_ata_create_or_close : Option VMsg → Bool
  | some (.v0 m) =>
    m.instructions.any fun ci =>
      if ci.program_id_index < m.account_keys.length then
        let pid := m.account_keys.getD ci.program_id_index ""
        pid = ATA_PROGRAM_ID ||
          (pid = TOKEN_PROGRAM_ID &&
            match ci.data with
            | d0 :: _ => d0 = TOKEN_CLOSE_ACCOUNT_DISCRIMINATOR
            | [] => false)
      else false
  | _ => false

/-- The submission step of `main.py` (lines 91-123): once the profit
gate passes, the two swap-transaction blobs fetched from the Swap API
are handed to `send_bundle` directly — `main` performs no intermediate
screening of the blobs.  `decode` abstracts
`VersionedTransaction.from_bytes ∘ b64decode`. -/
def main_submit_step (st : JitoState) (now : ℚ) (bh : String) (payer : PKey)
    (tipAcct : Option PKey) (decode : String → Option VMsg)
    (buyBlob sellBlob : String) (altMap : PKey → List PKey)
    (engines : List String) (resp : String → EngineResp) : SendResult :=
  send_bundle_full st now bh payer tipAcct (decode buyBlob) [decode sellBlob]
    altMap engines resp

/-! ### C7: lookup-table parser -/

/-- Helper: the element of `(List.range n).map f` at `i < n`. -/
theorem getD_map_range {α : Type} (f : Nat → α) (n i : Nat) (d : α) (h : i < n) :
    ((List.range n).map f).getD i d = f i := by
  rw [List.getD_eq_getElem?_getD, List.getElem?_map, List.getElem?_range h]
  rfl

/-- Unfolding lemma for `parse_alt_addresses` with the header size
spelled out. -/
theorem parse_alt_addresses_eq (data : List Nat) :
    parse_alt_addresses data =
      if data.length < 60 then []
      else if data.length < 60 + 32 * leBytesToNat ((data.drop 56).take 4) then []
      else (List.range (leBytesToNat ((data.drop 56).take 4))).map
        (fun i => (data.drop (60 + 32 * i)).take 32) := rfl

/-- C7: the lookup-table parser is total and defensive: data shorter
than 60 bytes parses to the empty list; a declared count reaching past
the end parses to the empty list; otherwise exactly the declared number
of 32-byte addresses is returned, in order; and any fetch-level I/O or
decode error also yields the empty list. -/
theorem alt_parser_spec :
    (∀ data : List Nat, data.length < 60 → parse_alt_addresses data = []) ∧
    (∀ (data : List Nat) (n : Nat),
      leBytesToNat ((data.drop 56).take 4) = n → data.length < 60 + 32 * n →
      parse_alt_addresses data = []) ∧
    (∀ (data : List Nat) (n : Nat),
      leBytesToNat ((data.drop 56).take 4) = n → 60 + 32 * n ≤ data.length →
      (parse_alt_addresses data).length = n ∧
      (∀ i < n, (parse_alt_addresses data).getD i [] =
          (data.drop (60 + 32 * i)).take 32 ∧
        ((parse_alt_addresses data).getD i []).length = 32)) ∧
    (fetch_alt_account .ioError = [] ∧ fetch_alt_account .noValue = []) := by
  refine ⟨?_, ?_, ?_, rfl, rfl⟩
  · intro data h
    rw [parse_alt_addresses_eq, if_pos h]
  · intro data n hn hlen
    rw [parse_alt_addresses_eq]
    by_cases h1 : data.length < 60
    · rw [if_pos h1]
    · rw [if_neg h1, if_pos (by rw [hn]; omega)]
  · intro data n hn hlen
    have hparse : parse_alt_addresses data =
        (List.range n).map (fun i => (data.drop (60 + 32 * i)).take 32) := by
      rw [parse_alt_addresses_eq, if_neg (by omega), if_neg (by rw [hn]; omega), hn]
    refine ⟨by rw [hparse]; simp, ?_⟩
    intro i hi
    have hgd : (parse_alt_addresses data).getD i [] = (data.drop (60 + 32 * i)).take 32 := by
      rw [hparse]
      exact getD_map_range _ n i [] hi
    refine ⟨hgd, ?_⟩
    rw [hgd, List.length_take, List.length_drop]
    omega

set_option maxRecDepth 8192 in
/-- Witness for C7 at concrete byte strings: a 10-byte blob parses to
nothing, and a well-formed blob declaring 2 addresses parses to exactly
2 addresses of 32 bytes. -/
theorem alt_parser_spec_witness :
    parse_alt_addresses (List.replicate 10 0) = [] ∧
    (parse_alt_addresses
      (List.replicate 56 0 ++ [2, 0, 0, 0] ++ List.replicate 64 7)).length = 2 := by
  constructor
  · exact alt_parser_spec.1 (List.replicate 10 0) (by decide)
  · exact (alt_parser_spec.2.2.1
      (List.replicate 56 0 ++ [2, 0, 0, 0] ++ List.replicate 64 7) 2
      (by decide) (by decide)).1

/-! ### C3: profit model and go/no-go decision -/

/-- `Settings.USDC_MINT`. -/
def USDC_MINT : String := "EPjFWdd5AufqSSqeM2qN1xzybapC8G4wEGGkZwyTDt1v"

/-- `Settings.SOL_MINT`. -/
def SOL_MINT : String := "So11111111111111111111111111111111111111112"

/-- The default configured mint lookup (`Settings.get_mint`). -/
def demoMints : String → Option String := fun s =>
  if s = "USDC" then some USDC_MINT
  else if s = "SOL" then some SOL_MINT
  else none

/-- The default configured path (`Settings.ARB_PATH`). -/
def demoPath : List String := ["USDC", "SOL", "USDC"]

/-- A concrete quote oracle realizing the specification's scenario:
leg 1 turns 100_000_000 USDC units into 500_000_000 lamports, leg 2
turns those into 100_050_000 USDC units. -/
def demoOracle : String → String → ℤ → Option QuoteResp := fun im om amt =>
  if im = USDC_MINT ∧ om = SOL_MINT ∧ amt = 100000000 then
    some ⟨500000000, 500000000⟩
  else if im = SOL_MINT ∧ om = USDC_MINT ∧ amt = 500000000 then
    some ⟨100050000, 100050000⟩
  else none

/-- The value `check_arb_opportunity` computes on the specification's
concrete scenario. -/
theorem check_arb_demo_eq :
    check_arb_opportunity demoMints demoPath demoOracle 100000000 =
      (some { quotes := [⟨500000000, 500000000⟩, ⟨100050000, 100050000⟩],
              final_usdc_units := 100050000,
              gross := gross_profit_usdc 100000000 100050000,
              net := net_profit_usdc 100000000 100050000 },
       [(USDC_MINT, SOL_MINT, 100000000), (SOL_MINT, USDC_MINT, 500000000)]) := rfl

/-- C3: every successful evaluation's net profit equals
`(final − invest)/10^6 − (tip + fee) × price` with the configured
constants; the submission gate is strict (`>`); and on the concrete
scenario `invest = 100_000_000`, `final = 100_050_000` the net profit
is exactly −0.01 USDC and the decision is "do not submit". -/
theorem profit_model_spec :
    (∀ (getMint : String → Option String) (path : List String)
        (oracle : String → String → ℤ → Option QuoteResp) (invest : ℤ)
        (r : ArbResult) (tr : List QuoteCall),
      check_arb_opportunity getMint path oracle invest = (some r, tr) →
      r.net = ((r.final_usdc_units : ℚ) - (invest : ℚ)) / 1000000 -
        (1 / 10000 + 2 / 100000) * 500) ∧
    (∀ net : ℚ, main_decision net = true ↔ net > 1 / 100) ∧
    ((check_arb_opportunity demoMints demoPath demoOracle 100000000).1.map
      (fun r => (r.net, main_decision r.net)) = some (-(1 / 100), false)) := by
  refine ⟨?_, ?_, ?_⟩
  · intro getMint path oracle invest r tr h
    unfold check_arb_opportunity at h
    split at h
    · simp at h
    · split at h
      · simp at h
      · split at h
        · rename_i tr'' heq
          simp at h
        · rename_i qs fin tr' heq
          have h2 : _ = r := Option.some.inj (congrArg Prod.fst h)
          rw [← h2]
          simp only [net_profit_usdc, gross_profit_usdc, total_cost_usdc,
            UNITS_PER_USDC, JITO_TIP_AMOUNT_SOL, ESTIMATED_GAS_SOL,
            FIXED_SOL_PRICE_USDC]
  · intro net
    simp [main_decision, MIN_NET_PROFIT_USDC]
  · rw [check_arb_demo_eq]
    simp only [Option.map_some']
    norm_num [net_profit_usdc, gross_profit_usdc, total_cost_usdc,
      UNITS_PER_USDC, JITO_TIP_AMOUNT_SOL, ESTIMATED_GAS_SOL,
      FIXED_SOL_PRICE_USDC, main_decision, MIN_NET_PROFIT_USDC]

/-- Witness for C3 at the concrete scenario oracle. -/
theorem profit_model_spec_witness :
    net_profit_usdc 100000000 100050000 =
      ((100050000 : ℚ) - (100000000 : ℚ)) / 1000000 -
        (1 / 10000 + 2 / 100000) * 500 := by
  have h := profit_model_spec.1 demoMints demoPath demoOracle 100000000
    { quotes := [⟨500000000, 500000000⟩, ⟨100050000, 100050000⟩],
      final_usdc_units := 100050000,
      gross := gross_profit_usdc 100000000 100050000,
      net := net_profit_usdc 100000000 100050000 }
    [(USDC_MINT, SOL_MINT, 100000000), (SOL_MINT, USDC_MINT, 500000000)]
    check_arb_demo_eq
  exact h

/-! ### C9: global cooldown does not escalate (corrected) -/

/-- C9 counterexample: a global cooldown set at time 0 runs until 45;
re-triggering at time 10 — before expiry — yields a duration of 45
again, not a geometrically escalated (strictly longer) one. -/
theorem global_cooldown_no_escalation_cx :
    (set_rate_limit_cooldown 0 0 none).2 = 45 ∧
    (set_rate_limit_cooldown 45 10 none).2 = 45 ∧
    (set_rate_limit_cooldown 45 10 none).1 = 55 ∧
    ¬ (set_rate_limit_cooldown 45 10 none).2 > (set_rate_limit_cooldown 0 0 none).2 := by
  refine ⟨by decide, by decide, ?_, by decide⟩
  simp [set_rate_limit_cooldown, retryAfterInt]
  norm_num

/-- C9 amended: re-triggering the global cooldown before the previous
one has expired re-applies the base duration `max(45, Retry-After)` —
it does not escalate — and only moves the shared deadline forward
(monotone via `max`); every configured endpoint is stamped with the
same fresh `now + duration` expiry.  (The geometric ×2.5 escalation
exists only in the per-endpoint `_set_engine_cooldown` helper, which
the global path never invokes.) -/
theorem global_cooldown_retrigger_base (st : JitoState) (urls : List String)
    (ra : Option ℚ) (now : ℚ) (hre : now < st.rate_limited_until) :
    (set_all_engines_cooldown st urls ra now).2 = max 45 (retryAfterInt ra) ∧
    (set_all_engines_cooldown st urls ra now).1.rate_limited_until =
      max st.rate_limited_until (now + ((max 45 (retryAfterInt ra) : ℤ) : ℚ)) ∧
    st.rate_limited_until ≤
      (set_all_engines_cooldown st urls ra now).1.rate_limited_until ∧
    (∀ u ∈ urls, (set_all_engines_cooldown st urls ra now).1.engine_cooldown u =
      now + ((max 45 (retryAfterInt ra) : ℤ) : ℚ)) := by
  refine ⟨rfl, rfl, le_max_left _ _, ?_⟩
  intro u hu
  simp [set_all_engines_cooldown, set_rate_limit_cooldown, hu]

/-- Witness for C9 amended at a concrete re-trigger. -/
theorem global_cooldown_retrigger_base_witness :
    (set_all_engines_cooldown ⟨45, fun _ => 0⟩ ["a", "b"] none 10).2 = 45 ∧
    (set_all_engines_cooldown ⟨45, fun _ => 0⟩ ["a", "b"] none 10).1.engine_cooldown "a" = 55 := by
  have h := global_cooldown_retrigger_base ⟨45, fun _ => 0⟩ ["a", "b"] none 10
    (by norm_num)
  refine ⟨by rw [h.1]; decide, ?_⟩
  have := h.2.2.2 "a" (by simp)
  rw [this]
  norm_num [retryAfterInt]

/-! ### C6: quote chainer -/

/-- Default quote call used with `List.getD`. -/
def dfltCall : QuoteCall := ("", "", 0)

/-- `isSome` commutes with `Option.map`. -/
theorem option_isSome_map {α β : Type} (f : α → β) (x : Option α) :
    (Option.map f x).isSome = x.isSome := by
  cases x <;> rfl

/-- `Option.map` is `none` exactly on `none`. -/
theorem option_map_eq_none {α β : Type} (f : α → β) (x : Option α) :
    Option.map f x = none ↔ x = none := by
  cases x <;> simp

/-- On success the chainer issued exactly `ms.length - 1` calls. -/
theorem chain_quotes_success_len (o : String → String → ℤ → Option QuoteResp) :
    ∀ (ms : List String) (amt : ℤ), (chain_quotes o ms amt).1.isSome = true →
      (chain_quotes o ms amt).2.length = ms.length - 1 := by
  intro ms
  induction ms with
  | nil => intro amt _; simp [chain_quotes]
  | cons m1 tl ih =>
    cases tl with
    | nil => intro amt _; simp [chain_quotes]
    | cons m2 rest =>
      intro amt h
      cases hq : o m1 m2 amt with
      | none => simp [chain_quotes, hq] at h
      | some q =>
        simp only [chain_quotes, hq] at h ⊢
        rw [option_isSome_map] at h
        have hr := ih q.otherAmountThreshold h
        simp only [List.length_cons] at hr ⊢
        omega

/-- On failure the chain stops at the failing call: the trace is
nonempty, no longer than `ms.length - 1`, and its last call is exactly
the one the oracle failed on. -/
theorem chain_quotes_fail_last (o : String → String → ℤ → Option QuoteResp) :
    ∀ (ms : List String) (amt : ℤ), (chain_quotes o ms amt).1 = none →
      1 ≤ (chain_quotes o ms amt).2.length ∧
      (chain_quotes o ms amt).2.length ≤ ms.length - 1 ∧
      ∃ t, (chain_quotes o ms amt).2.getLast? = some t ∧ o t.1 t.2.1 t.2.2 = none := by
  intro ms
  induction ms with
  | nil => intro amt h; simp [chain_quotes] at h
  | cons m1 tl ih =>
    cases tl with
    | nil => intro amt h; simp [chain_quotes] at h
    | cons m2 rest =>
      intro amt h
      cases hq : o m1 m2 amt with
      | none =>
        simp only [chain_quotes, hq]
        refine ⟨by simp, ?_, (m1, m2, amt), by simp, hq⟩
        simp only [List.length_cons, List.length_nil]
        omega
      | some q =>
        simp only [chain_quotes, hq] at h ⊢
        rw [option_map_eq_none] at h
        obtain ⟨h1, h2, t, hlast, hfail⟩ := ih q.otherAmountThreshold h
        refine ⟨by simp, ?_, t, ?_, hfail⟩
        · simp only [List.length_cons] at h2 ⊢
          omega
        · rcases hr2 : (chain_quotes o (m2 :: rest) q.otherAmountThreshold).2 with _ | ⟨c2, t2⟩
          · rw [hr2] at h1; simp at h1
          · rw [hr2] at hlast
            simpa using hlast

/-- Every issued call is in path order: the `j`-th call goes from the
`j`-th to the `(j+1)`-th mint of the path. -/
theorem chain_quotes_path_order (o : String → String → ℤ → Option QuoteResp) :
    ∀ (ms : List String) (amt : ℤ) (j : Nat), j < (chain_quotes o ms amt).2.length →
      ((chain_quotes o ms amt).2.getD j dfltCall).1 = ms.getD j "" ∧
      ((chain_quotes o ms amt).2.getD j dfltCall).2.1 = ms.getD (j + 1) "" := by
  intro ms
  induction ms with
  | nil => intro amt j h; simp [chain_quotes] at h
  | cons m1 tl ih =>
    cases tl with
    | nil => intro amt j h; simp [chain_quotes] at h
    | cons m2 rest =>
      intro amt j h
      cases hq : o m1 m2 amt with
      | none =>
        simp only [chain_quotes, hq] at h ⊢
        simp only [List.length_cons, List.length_nil] at h
        have hj : j = 0 := by omega
        subst hj
        simp
      | some q =>
        simp only [chain_quotes, hq] at h ⊢
        cases j with
        | zero => simp
        | succ j =>
          simp only [List.length_cons] at h
          have := ih q.otherAmountThreshold j (by omega)
          simpa using this

/-- The first issued call carries the invested amount. -/
theorem chain_quotes_first_amount (o : String → String → ℤ → Option QuoteResp)
    (ms : List String) (amt : ℤ) :
    (chain_quotes o ms amt).2 ≠ [] →
    ((chain_quotes o ms amt).2.getD 0 dfltCall).2.2 = amt := by
  cases ms with
  | nil => intro h; simp [chain_quotes] at h
  | cons m1 tl =>
    cases tl with
    | nil => intro h; simp [chain_quotes] at h
    | cons m2 rest =>
      intro _
      cases hq : o m1 m2 amt with
      | none => simp [chain_quotes, hq]
      | some q => simp [chain_quotes, hq]

/-- Each subsequent call's input amount is the previous leg's
`otherAmountThreshold`. -/
theorem chain_quotes_chained (o : String → String → ℤ → Option QuoteResp) :
    ∀ (ms : List String) (amt : ℤ) (j : Nat), j + 1 < (chain_quotes o ms amt).2.length →
      ∃ q, o ((chain_quotes o ms amt).2.getD j dfltCall).1
          ((chain_quotes o ms amt).2.getD j dfltCall).2.1
          ((chain_quotes o ms amt).2.getD j dfltCall).2.2 = some q ∧
        ((chain_quotes o ms amt).2.getD (j + 1) dfltCall).2.2 = q.otherAmountThreshold := by
  intro ms
  induction ms with
  | nil => intro amt j h; simp [chain_quotes] at h
  | cons m1 tl ih =>
    cases tl with
    | nil => intro amt j h; simp [chain_quotes] at h
    | cons m2 rest =>
      intro amt j h
      cases hq : o m1 m2 amt with
      | none =>
        simp only [chain_quotes, hq] at h
        simp only [List.length_cons, List.length_nil] at h
        omega
      | some q =>
        simp only [chain_quotes, hq] at h ⊢
        cases j with
        | zero =>
          refine ⟨q, by simpa using hq, ?_⟩
          simp only [List.length_cons] at h
          have hne : (chain_quotes o (m2 :: rest) q.otherAmountThreshold).2 ≠ [] := by
            intro hnil
            rw [hnil] at h
            simp at h
          have := chain_quotes_first_amount o (m2 :: rest) q.otherAmountThreshold hne
          simpa using this
        | succ j =>
          simp only [List.length_cons] at h
          have := ih q.otherAmountThreshold j (by omega)
          simpa using this

/-- On success every issued call succeeded. -/
theorem chain_quotes_all_ok (o : String → String → ℤ → Option QuoteResp) :
    ∀ (ms : List String) (amt : ℤ), (chain_quotes o ms amt).1.isSome = true →
      ∀ j, j < (chain_quotes o ms amt).2.length →
        ∃ q, o ((chain_quotes o ms amt).2.getD j dfltCall).1
            ((chain_quotes o ms amt).2.getD j dfltCall).2.1
            ((chain_quotes o ms amt).2.getD j dfltCall).2.2 = some q := by
  intro ms
  induction ms with
  | nil => intro amt _ j h; simp [chain_quotes] at h
  | cons m1 tl ih =>
    cases tl with
    | nil => intro amt _ j h; simp [chain_quotes] at h
    | cons m2 rest =>
      intro amt hs j h
      cases hq : o m1 m2 amt with
      | none => simp [chain_quotes, hq] at hs
      | some q =>
        simp only [chain_quotes, hq] at hs h ⊢
        rw [option_isSome_map] at hs
        cases j with
        | zero => exact ⟨q, by simpa using hq⟩
        | succ j =>
          simp only [List.length_cons] at h
          have := ih q.otherAmountThreshold hs j (by omega)
          simpa using this

/-- The mint-resolution comprehension resolves each path symbol in
order, or fails as a whole. -/
theorem resolveMints_spec (g : String → Option String) :
    ∀ (p : List String) (ms : List String), resolveMints g p = some ms →
      ms.length = p.length ∧ ∀ j < p.length, g (p.getD j "") = some (ms.getD j "") := by
  intro p
  induction p with
  | nil =>
    intro ms h
    simp only [resolveMints, Option.some.injEq] at h
    subst h
    simp
  | cons s t ih =>
    intro ms h
    simp only [resolveMints] at h
    cases hg : g s with
    | none => rw [hg] at h; simp at h
    | some m =>
      rw [hg] at h
      cases hrec : resolveMints g t with
      | none => rw [hrec] at h; simp at h
      | some ms' =>
        rw [hrec] at h
        simp only [Option.some.injEq] at h
        subst h
        obtain ⟨hlen, hall⟩ := ih ms' hrec
        refine ⟨by simp [hlen], ?_⟩
        intro j hj
        cases j with
        | zero => simpa using hg
        | succ j => simpa using hall j (by simpa using hj)

/-- C6: for a valid configured path of N symbols, one evaluation issues
exactly N−1 quote calls in path order (the j-th call quotes mint j →
mint j+1), the first call's amount is the invested amount, every later
call's amount is the previous leg's `otherAmountThreshold`, every call
but possibly the last succeeded, and a failed leg ends the chain at
that call with the whole evaluation returning `none` (no partial
result). -/
theorem quote_chainer_spec (getMint : String → Option String) (path : List String)
    (oracle : String → String → ℤ → Option QuoteResp) (invest : ℤ)
    (mints : List String) (r : Option ArbResult) (tr : List QuoteCall)
    (hlen2 : 2 ≤ path.length) (hhead : path.headD "" = "USDC")
    (hlast : path.getLastD "" = "USDC")
    (hmints : resolveMints getMint path = some mints)
    (hrun : check_arb_opportunity getMint path oracle invest = (r, tr)) :
    mints.length = path.length ∧
    (∀ j < path.length, getMint (path.getD j "") = some (mints.getD j "")) ∧
    (r.isSome = true → tr.length = path.length - 1) ∧
    (r = none → 1 ≤ tr.length ∧ tr.length ≤ path.length - 1 ∧
      ∃ t, tr.getLast? = some t ∧ oracle t.1 t.2.1 t.2.2 = none) ∧
    (∀ j < tr.length,
      (tr.getD j dfltCall).1 = mints.getD j "" ∧
      (tr.getD j dfltCall).2.1 = mints.getD (j + 1) "") ∧
    (tr ≠ [] → (tr.getD 0 dfltCall).2.2 = invest) ∧
    (∀ j, j + 1 < tr.length → ∃ q,
      oracle (tr.getD j dfltCall).1 (tr.getD j dfltCall).2.1
          (tr.getD j dfltCall).2.2 = some q ∧
      (tr.getD (j + 1) dfltCall).2.2 = q.otherAmountThreshold) ∧
    (r.isSome = true → ∀ j < tr.length, ∃ q,
      oracle (tr.getD j dfltCall).1 (tr.getD j dfltCall).2.1
          (tr.getD j dfltCall).2.2 = some q) := by
  obtain ⟨hmlen, hmall⟩ := resolveMints_spec getMint path mints hmints
  have hcond : ¬ (path.length < 2 ∨ path.headD "" ≠ "USDC" ∨ path.getLastD "" ≠ "USDC") := by
    push_neg
    exact ⟨by omega, hhead, hlast⟩
  unfold check_arb_opportunity at hrun
  rw [if_neg hcond, hmints] at hrun
  simp only [] at hrun
  have L1 := chain_quotes_success_len oracle mints invest
  have L2 := chain_quotes_fail_last oracle mints invest
  have L3 := chain_quotes_path_order oracle mints invest
  have L4 := chain_quotes_first_amount oracle mints invest
  have L5 := chain_quotes_chained oracle mints invest
  have L6 := chain_quotes_all_ok oracle mints invest
  rcases hc : chain_quotes oracle mints invest with ⟨ro, tro⟩
  rw [hc] at hrun L1 L2 L3 L4 L5 L6
  cases ro with
  | none =>
    have h1 : r = none := by simpa using (congrArg Prod.fst hrun).symm
    have h2 : tr = tro := by simpa using (congrArg Prod.snd hrun).symm
    subst h1
    subst h2
    simp only at L1 L2 L3 L4 L5 L6
    refine ⟨hmlen, hmall, by simp, ?_, fun j hj => L3 j hj, L4, L5, by simp⟩
    intro _
    obtain ⟨g1, g2, t, g3, g4⟩ := L2 (by simp)
    exact ⟨g1, by omega, t, g3, g4⟩
  | some p =>
    rcases p with ⟨qs, fin⟩
    have h1 : r = some { quotes := qs, final_usdc_units := fin,
                         gross := gross_profit_usdc invest fin,
                         net := net_profit_usdc invest fin } := by
      simpa using (congrArg Prod.fst hrun).symm
    have h2 : tr = tro := by simpa using (congrArg Prod.snd hrun).symm
    subst h1
    subst h2
    simp only at L1 L2 L3 L4 L5 L6
    refine ⟨hmlen, hmall, ?_, by simp, fun j hj => L3 j hj, L4, L5, ?_⟩
    · intro _
      have := L1 (by simp)
      omega
    · intro _
      exact L6 (by simp)

/-- A concrete oracle whose second leg fails. -/
def failOracle : String → String → ℤ → Option QuoteResp := fun im _ _ =>
  if im = USDC_MINT then some ⟨7, 7⟩ else none

set_option maxRecDepth 8192 in
/-- Witness for C6: on the default path with a failing second leg, the
evaluation returns `none` after exactly the two issued calls, the
second of which is the failing one. -/
theorem quote_chainer_spec_witness :
    1 ≤ [(USDC_MINT, SOL_MINT, (100 : ℤ)), (SOL_MINT, USDC_MINT, 7)].length ∧
    [(USDC_MINT, SOL_MINT, (100 : ℤ)), (SOL_MINT, USDC_MINT, 7)].length ≤ demoPath.length - 1 ∧
    ∃ t, [(USDC_MINT, SOL_MINT, (100 : ℤ)), (SOL_MINT, USDC_MINT, 7)].getLast? = some t ∧
      failOracle t.1 t.2.1 t.2.2 = none :=
  (quote_chainer_spec demoMints demoPath failOracle 100
    [USDC_MINT, SOL_MINT, USDC_MINT] none
    [(USDC_MINT, SOL_MINT, 100), (SOL_MINT, USDC_MINT, 7)]
    (by decide) rfl rfl rfl rfl).2.2.2.1 rfl

/-! ### C5: message-rebuild failure policy -/

/-- C5: the rebuild either (a) passes a non-V0 message through
completely unchanged (its original recency token included — the token
is not swapped), or (b) for a V0 message, fails outright when the key
list is empty, when zero instructions can be reconstructed, or when
recompilation fails, and otherwise returns exactly the freshly
recompiled message produced by `try_compile` from a nonempty
reconstructed instruction list; and a rebuild error aborts the whole
`send_bundle` construction attempt (outcome `failed`, nothing built,
no endpoint contacted).  In particular no code path returns the old
compiled message with only the recency-token field replaced. -/
theorem rebuild_failure_policy (bh : String) (altMap : PKey → List PKey) :
    (∀ lm : MsgLegacy, rebuild_message bh altMap (.legacy lm) = .ok (.legacy lm)) ∧
    (∀ m : MsgV0, m.account_keys = [] → rebuild_message bh altMap (.v0 m) = .error ()) ∧
    (∀ (m : MsgV0) (payer : PKey) (rest : List PKey), m.account_keys = payer :: rest →
      decompile_to_instructions m (build_full_accounts m altMap).1
          (build_full_accounts m altMap).2.2 = [] →
      rebuild_message bh altMap (.v0 m) = .error ()) ∧
    (∀ (m : MsgV0) (payer : PKey) (rest : List PKey), m.account_keys = payer :: rest →
      try_compile payer
          (decompile_to_instructions m (build_full_accounts m altMap).1
            (build_full_accounts m altMap).2.2)
          (build_full_accounts m altMap).2.1 bh = none →
      rebuild_message bh altMap (.v0 m) = .error ()) ∧
    (∀ (m : MsgV0) (v : VMsg), rebuild_message bh altMap (.v0 m) = .ok v →
      ∃ (payer : PKey) (rest : List PKey) (m2 : MsgV0),
        m.account_keys = payer :: rest ∧ v = .v0 m2 ∧
        decompile_to_instructions m (build_full_accounts m altMap).1
          (build_full_accounts m altMap).2.2 ≠ [] ∧
        try_compile payer
          (decompile_to_instructions m (build_full_accounts m altMap).1
            (build_full_accounts m altMap).2.2)
          (build_full_accounts m altMap).2.1 bh = some m2) ∧
    (∀ (st : JitoState) (now : ℚ) (payer : PKey) (tipAcct : Option PKey)
        (t : VMsg) (addl : List (Option VMsg)) (engines : List String)
        (resp : String → EngineResp),
      ¬ 0 < rate_limit_wait_seconds st.rate_limited_until now →
      rebuild_message bh altMap t = .error () →
      (send_bundle_full st now bh payer tipAcct (some t) addl altMap engines
          resp).outcome = .failed ∧
      (send_bundle_full st now bh payer tipAcct (some t) addl altMap engines
          resp).bundle = none ∧
      (send_bundle_full st now bh payer tipAcct (some t) addl altMap engines
          resp).contacted = []) := by
  refine ⟨fun lm => rfl, ?_, ?_, ?_, ?_, ?_⟩
  · intro m hk
    simp only [rebuild_message, hk]
  · intro m payer rest hk hdec
    simp only [rebuild_message, hk, hdec, List.isEmpty_nil, if_true]
  · intro m payer rest hk htc
    simp only [rebuild_message, hk]
    split
    · rfl
    · rw [htc]
  · intro m v h
    simp only [rebuild_message] at h
    cases hk : m.account_keys with
    | nil => rw [hk] at h; simp at h
    | cons payer rest =>
      rw [hk] at h
      simp only [] at h
      by_cases hdec : decompile_to_instructions m (build_full_accounts m altMap).1
          (build_full_accounts m altMap).2.2 = []
      · rw [if_pos (by simp [hdec])] at h
        simp at h
      · rw [if_neg (by simpa [List.isEmpty_iff] using hdec)] at h
        cases htc : try_compile payer
            (decompile_to_instructions m (build_full_accounts m altMap).1
              (build_full_accounts m altMap).2.2)
            (build_full_accounts m altMap).2.1 bh with
        | none => rw [htc] at h; simp at h
        | some m2 =>
          rw [htc] at h
          simp only [Except.ok.injEq] at h
          exact ⟨payer, rest, m2, rfl, h.symm, hdec, htc⟩
  · intro st now payer tipAcct t addl engines resp hgate hfail
    simp only [send_bundle_full, if_neg hgate, build_bundle, hfail]
    exact ⟨trivial, trivial, trivial⟩

/-- Witness for C5: a V0 message with no instructions makes the rebuild
error and the whole send attempt return `failed` without building or
contacting anything. -/
theorem rebuild_failure_policy_witness :
    rebuild_message "bh" (fun _ => []) (.v0 ⟨⟨1, 0, 0⟩, ["P"], "old", [], []⟩) =
      .error () ∧
    (send_bundle_full ⟨0, fun _ => 0⟩ 0 "bh" "P" (some "T")
        (some (.v0 ⟨⟨1, 0, 0⟩, ["P"], "old", [], []⟩)) [] (fun _ => []) ["e"]
        (fun _ => ⟨200, none, some "x", none⟩)).outcome = .failed := by
  have h3 := (rebuild_failure_policy "bh" (fun _ => [])).2.2.1
    ⟨⟨1, 0, 0⟩, ["P"], "old", [], []⟩ "P" [] rfl rfl
  refine ⟨h3, ?_⟩
  exact ((rebuild_failure_policy "bh" (fun _ => [])).2.2.2.2.2
    ⟨0, fun _ => 0⟩ 0 "P" (some "T") _ [] ["e"]
    (fun _ => ⟨200, none, some "x", none⟩)
    (by norm_num [rate_limit_wait_seconds, pyInt]) h3).1

/-! ### C1: bundle shape and shared recency token -/

/-- Any message produced by `try_compile` carries the blockhash it was
compiled against. -/
theorem try_compile_blockhash (p : PKey) (instrs : List Ix) (alts : List ALTAccount)
    (bh : String) (m2 : MsgV0) :
    try_compile p instrs alts bh = some m2 → m2.recent_blockhash = bh := by
  intro h
  simp only [try_compile] at h
  split at h
  · simp only [Option.some.injEq] at h
    rw [← h]
  · simp at h

/-- A successful rebuild of a V0 message yields a V0 message carrying
the new blockhash. -/
theorem rebuild_ok_v0_blockhash (bh : String) (altMap : PKey → List PKey)
    (m : MsgV0) (v : VMsg) :
    rebuild_message bh altMap (.v0 m) = .ok v → v.blockhash = bh := by
  intro h
  simp only [rebuild_message] at h
  cases hk : m.account_keys with
  | nil => rw [hk] at h; simp at h
  | cons payer rest =>
    rw [hk] at h
    simp only [] at h
    split at h
    · simp at h
    · cases htc : try_compile payer
          (decompile_to_instructions m (build_full_accounts m altMap).1
            (build_full_accounts m altMap).2.2)
          (build_full_accounts m altMap).2.1 bh with
      | none => rw [htc] at h; simp at h
      | some m2 =>
        rw [htc] at h
        simp only [Except.ok.injEq] at h
        rw [← h]
        exact try_compile_blockhash _ _ _ _ _ htc

/-- The additional-transaction rebuild loop: on success it rebuilds
every element, preserving count, and every output member comes from a
successful rebuild of some input. -/
theorem rebuild_all_spec (bh : String) (altMap : PKey → List PKey) :
    ∀ (addl : List (Option VMsg)) (l : List VMsg), rebuild_all bh altMap addl = some l →
      l.length = addl.length ∧
      ∀ t ∈ l, ∃ tin, some tin ∈ addl ∧ rebuild_message bh altMap tin = .ok t := by
  intro addl
  induction addl with
  | nil =>
    intro l h
    simp only [rebuild_all, Option.some.injEq] at h
    subst h
    simp
  | cons ot rest ih =>
    intro l h
    cases ot with
    | none => simp [rebuild_all] at h
    | some tin =>
      simp only [rebuild_all] at h
      cases hr : rebuild_message bh altMap tin with
      | error e => rw [hr] at h; simp at h
      | ok tr =>
        rw [hr] at h
        simp only [Option.map_eq_some'] at h
        obtain ⟨l', hl', rfl⟩ := h
        obtain ⟨hlen, hmem⟩ := ih l' hl'
        refine ⟨by simp [hlen], ?_⟩
        intro t ht
        rcases List.mem_cons.mp ht with rfl | ht'
        · exact ⟨tin, by simp, hr⟩
        · obtain ⟨tin', hin', hok'⟩ := hmem t ht'
          exact ⟨tin', by simp [hin'], hok'⟩

/-- The concrete legacy message used as a C1 counterexample input. -/
def lmOld : MsgLegacy := ⟨⟨1, 0, 0⟩, ["P"], "oldbh", []⟩

/-- The tip message `try_compile` produces for payer "P", tip account
"T" and blockhash "newbh". -/
def tipMsgC : MsgV0 :=
  ⟨⟨1, 0, 1⟩, ["P", "T", SYSTEM_PROGRAM_ID], "newbh",
   [⟨2, [0, 1], natToLeBytes 4 2 ++ natToLeBytes 8 tip_lamports⟩], []⟩

/-- C1 counterexample: a swap transaction whose message is a legacy
(non-V0) message is passed through the rebuild unchanged, so the
submitted bundle's first member still carries its original recency
token "oldbh" even though the token fetched for this construction
attempt is "newbh" — the claim that every member transaction is
compiled against the single fetched token fails on this input. -/
theorem bundle_token_legacy_cx :
    (send_bundle_full ⟨0, fun _ => 0⟩ 0 "newbh" "P" (some "T")
        (some (.legacy lmOld)) [] (fun _ => []) ["e"]
        (fun _ => ⟨200, none, some "bid", none⟩)).outcome = .accepted "bid" ∧
    (send_bundle_full ⟨0, fun _ => 0⟩ 0 "newbh" "P" (some "T")
        (some (.legacy lmOld)) [] (fun _ => []) ["e"]
        (fun _ => ⟨200, none, some "bid", none⟩)).bundle =
      some [.legacy lmOld, .v0 tipMsgC] ∧
    (VMsg.legacy lmOld).blockhash = "oldbh" ∧ "oldbh" ≠ "newbh" := by
  have hgate : ¬ (0 : ℤ) < rate_limit_wait_seconds (0 : ℚ) 0 := by
    norm_num [rate_limit_wait_seconds, pyInt]
  have hcool : ¬ ((0 : ℚ) < 0) := by norm_num
  have htip : try_compile "P" [transfer_ix "P" "T" tip_lamports] [] "newbh" =
      some tipMsgC := rfl
  have hb : build_bundle "newbh" "P" (some "T") (some (.legacy lmOld)) []
      (fun _ => []) = some [.legacy lmOld, .v0 tipMsgC] := by
    simp only [build_bundle, rebuild_message, rebuild_all, htip, List.nil_append,
      Option.map_some']
  have hguard : bundle_locks_vote_account [.legacy lmOld, .v0 tipMsgC] = false := by
    decide
  have hloop : submit_loop (fun _ => ⟨200, none, some "bid", none⟩) (fun _ => (0 : ℚ)) 0
      ["e"] false none [] = .accepted "bid" ["e"] := by
    simp only [submit_loop, hcool, if_false, List.nil_append]
    rfl
  refine ⟨?_, ?_, rfl, by decide⟩ <;>
  · simp only [send_bundle_full, hgate, if_false, hb, hguard, Bool.false_eq_true,
      hloop]

/-- The last element of `l ++ [a]` is `a`. -/
theorem getLast?_append_singleton {α : Type} : ∀ (l : List α) (a : α),
    (l ++ [a]).getLast? = some a
  | [], _ => rfl
  | x :: t, a => by
    rw [List.cons_append]
    cases ht : t ++ [a] with
    | nil => exact absurd (congrArg List.length ht) (by simp)
    | cons y t2 =>
      rw [List.getLast?_cons_cons, ← ht]
      exact getLast?_append_singleton t a

set_option maxHeartbeats 1000000 in
/-- C1 amended: every successfully constructed bundle has at least 2
transactions (exactly the rebuilt swaps plus the tip), the tip transfer
— compiled against the fetched blockhash — is the last element, and
when every input transaction decodes to a V0 message (a legacy message
is instead passed through unchanged and may retain a different token),
every member of the bundle carries the single blockhash fetched once
for the attempt. -/
theorem bundle_shape_spec (bh : String) (payer : PKey) (tipAcct : PKey)
    (firstTx : Option VMsg) (addl : List (Option VMsg))
    (altMap : PKey → List PKey) (b : List VMsg)
    (hb : build_bundle bh payer (some tipAcct) firstTx addl altMap = some b) :
    2 ≤ b.length ∧ b.length = addl.length + 2 ∧
    (∃ tm : MsgV0, b.getLast? = some (.v0 tm) ∧
      try_compile payer [transfer_ix payer tipAcct tip_lamports] [] bh = some tm ∧
      tm.recent_blockhash = bh) ∧
    ((∀ ot ∈ firstTx :: addl, ∀ t, ot = some t → ∃ mv, t = .v0 mv) →
      ∀ t ∈ b, t.blockhash = bh) := by
  cases firstTx with
  | none => simp [build_bundle] at hb
  | some t1 =>
    simp only [build_bundle] at hb
    cases hr1 : rebuild_message bh altMap t1 with
    | error e => rw [hr1] at hb; simp at hb
    | ok t1r =>
      rw [hr1] at hb
      cases hra : rebuild_all bh altMap addl with
      | none => rw [hra] at hb; simp at hb
      | some addlr =>
        rw [hra] at hb
        cases htc : try_compile payer [transfer_ix payer tipAcct tip_lamports] [] bh with
        | none => rw [htc] at hb; simp at hb
        | some tipM =>
          rw [htc] at hb
          simp only [Option.some.injEq] at hb
          subst hb
          obtain ⟨hlen, hmem⟩ := rebuild_all_spec bh altMap addl addlr hra
          refine ⟨by simp, by simp [hlen], ?_, ?_⟩
          · refine ⟨tipM, ?_, rfl, try_compile_blockhash _ _ _ _ _ htc⟩
            rw [show t1r :: (addlr ++ [VMsg.v0 tipM]) =
              (t1r :: addlr) ++ [VMsg.v0 tipM] from (List.cons_append t1r addlr _).symm]
            exact getLast?_append_singleton _ _
          · intro hallv0 t ht
            rcases List.mem_cons.mp ht with rfl | ht'
            · obtain ⟨mv, hmv⟩ := hallv0 (some t1) (by simp) t1 rfl
              subst hmv
              exact rebuild_ok_v0_blockhash bh altMap mv t hr1
            · rcases List.mem_append.mp ht' with ht'' | htip
              · obtain ⟨tin, hin, hok⟩ := hmem t ht''
                obtain ⟨mv, hmv⟩ := hallv0 (some tin) (by simp [hin]) tin rfl
                subst hmv
                exact rebuild_ok_v0_blockhash bh altMap mv t hok
              · rcases List.mem_singleton.mp htip with rfl
                simpa [VMsg.blockhash] using try_compile_blockhash _ _ _ _ _ htc

/-- Witness for C1 amended: a concrete all-V0 construction. -/
theorem bundle_shape_spec_witness :
    ∃ b : List VMsg,
      build_bundle "newbh" "P" (some "T")
        (some (.v0 ⟨⟨1, 0, 0⟩, ["P", "Q"], "oldbh", [⟨1, [0], [7]⟩], []⟩)) []
        (fun _ => []) = some b ∧
      2 ≤ b.length ∧ (∀ t ∈ b, t.blockhash = "newbh") := by
  have hb : build_bundle "newbh" "P" (some "T")
      (some (.v0 ⟨⟨1, 0, 0⟩, ["P", "Q"], "oldbh", [⟨1, [0], [7]⟩], []⟩)) []
      (fun _ => []) =
      some [.v0 ⟨⟨1, 0, 1⟩, ["P", "Q"], "newbh",
              [⟨1, [0], [7]⟩], []⟩, .v0 tipMsgC] := rfl
  have h := bundle_shape_spec "newbh" "P" "T"
    (some (.v0 ⟨⟨1, 0, 0⟩, ["P", "Q"], "oldbh", [⟨1, [0], [7]⟩], []⟩)) []
    (fun _ => []) _ hb
  refine ⟨_, hb, h.1, h.2.2.2 ?_⟩
  intro ot hot t hsome
  rcases List.mem_singleton.mp hot with rfl
  cases hsome
  exact ⟨_, rfl⟩

/-! ### C8: rate-limit signal and global cooldown -/

/-- Endpoint responses: "e1" rate-limits with HTTP 429, every other
endpoint accepts the bundle. -/
def respMixed : String → EngineResp := fun u =>
  if u = "e1" then ⟨429, none, none, none⟩ else ⟨200, none, some "bid", none⟩

/-- C8 counterexample: endpoint "e1" reports a rate-limit signal
(HTTP 429) during the submission attempt, yet because the next endpoint
accepts the bundle, no endpoint is placed into cooling and the very
next `send_bundle` call proceeds to contact endpoints again instead of
returning the RATE_LIMITED sentinel — the claim fails on this input. -/
theorem rate_limit_global_cooldown_cx :
    (respMixed "e1").status = 429 ∧
    (send_bundle_full ⟨0, fun _ => 0⟩ 0 "newbh" "P" (some "T")
        (some (.legacy lmOld)) [] (fun _ => []) ["e1", "e2"]
        respMixed).outcome = .accepted "bid" ∧
    (send_bundle_full ⟨0, fun _ => 0⟩ 0 "newbh" "P" (some "T")
        (some (.legacy lmOld)) [] (fun _ => []) ["e1", "e2"]
        respMixed).contacted = ["e1", "e2"] ∧
    (send_bundle_full ⟨0, fun _ => 0⟩ 0 "newbh" "P" (some "T")
        (some (.legacy lmOld)) [] (fun _ => []) ["e1", "e2"]
        respMixed).state.rate_limited_until = 0 ∧
    (send_bundle_full ⟨0, fun _ => 0⟩ 0 "newbh" "P" (some "T")
        (some (.legacy lmOld)) [] (fun _ => []) ["e1", "e2"]
        respMixed).state.engine_cooldown "e1" = 0 ∧
    (send_bundle_full ⟨0, fun _ => 0⟩ 0 "newbh" "P" (some "T")
        (some (.legacy lmOld)) [] (fun _ => []) ["e1", "e2"]
        respMixed).state.engine_cooldown "e2" = 0 ∧
    (send_bundle_full
        (send_bundle_full ⟨0, fun _ => 0⟩ 0 "newbh" "P" (some "T")
          (some (.legacy lmOld)) [] (fun _ => []) ["e1", "e2"] respMixed).state
        0 "newbh" "P" (some "T") (some (.legacy lmOld)) [] (fun _ => [])
        ["e1", "e2"] respMixed).outcome ≠ .rateLimited := by
  have hgate : ¬ (0 : ℤ) < rate_limit_wait_seconds (0 : ℚ) 0 := by
    norm_num [rate_limit_wait_seconds, pyInt]
  have hcool : ¬ ((0 : ℚ) < 0) := by norm_num
  have htip : try_compile "P" [transfer_ix "P" "T" tip_lamports] [] "newbh" =
      some tipMsgC := rfl
  have hb : build_bundle "newbh" "P" (some "T") (some (.legacy lmOld)) []
      (fun _ => []) = some [.legacy lmOld, .v0 tipMsgC] := by
    simp only [build_bundle, rebuild_message, rebuild_all, htip, List.nil_append,
      Option.map_some']
  have hguard : bundle_locks_vote_account [.legacy lmOld, .v0 tipMsgC] = false := by
    decide
  have hloop : submit_loop respMixed (fun _ => (0 : ℚ)) 0 ["e1", "e2"] false none [] =
      .accepted "bid" ["e1", "e2"] := by
    simp [submit_loop, respMixed, hcool]
  have hsend : send_bundle_full ⟨0, fun _ => 0⟩ 0 "newbh" "P" (some "T")
      (some (.legacy lmOld)) [] (fun _ => []) ["e1", "e2"] respMixed =
      ⟨.accepted "bid", ⟨0, fun _ => 0⟩, some [.legacy lmOld, .v0 tipMsgC],
       ["e1", "e2"]⟩ := by
    simp only [send_bundle_full, hgate, if_false, hb, hguard, Bool.false_eq_true,
      hloop]
  refine ⟨rfl, ?_, ?_, ?_, ?_, ?_, ?_⟩ <;> rw [hsend] <;> try rfl
  rw [hsend]
  simp

/-- C8 amended: (a) when a submission attempt ends rate-limited (a
rate-limit signal was seen and no later endpoint accepted), the global
cooldown stamps every configured endpoint with one shared expiry
`T = now + duration` (duration ≥ 45s) and pushes `_rate_limited_until`
to at least `T`; (b) any subsequent `send_bundle` call made while at
least one full second remains before `_rate_limited_until` returns the
RATE_LIMITED sentinel, builds nothing and contacts no endpoint.  (As
the counterexample shows, an attempt in which a later endpoint accepts
applies no cooldown at all; and in the final fractional second before
expiry the truncated wait `int(until - now)` is 0 and the gate no
longer fires.) -/
theorem rate_limit_cooldown_spec :
    (∀ (st : JitoState) (urls : List String) (ra : Option ℚ) (now : ℚ),
      (∀ u ∈ urls, (set_all_engines_cooldown st urls ra now).1.engine_cooldown u =
        now + ((set_all_engines_cooldown st urls ra now).2 : ℚ)) ∧
      (45 : ℤ) ≤ (set_all_engines_cooldown st urls ra now).2 ∧
      now + ((set_all_engines_cooldown st urls ra now).2 : ℚ) ≤
        (set_all_engines_cooldown st urls ra now).1.rate_limited_until) ∧
    (∀ (st : JitoState) (now : ℚ) (bh : String) (payer : PKey)
        (tipAcct : Option PKey) (firstTx : Option VMsg) (addl : List (Option VMsg))
        (altMap : PKey → List PKey) (engines : List String)
        (resp : String → EngineResp),
      1 ≤ st.rate_limited_until - now →
      (send_bundle_full st now bh payer tipAcct firstTx addl altMap engines
          resp).outcome = .rateLimited ∧
      (send_bundle_full st now bh payer tipAcct firstTx addl altMap engines
          resp).bundle = none ∧
      (send_bundle_full st now bh payer tipAcct firstTx addl altMap engines
          resp).contacted = []) ∧
    (∀ (st : JitoState) (now : ℚ) (bh : String) (payer : PKey)
        (tipAcct : Option PKey) (firstTx : Option VMsg) (addl : List (Option VMsg))
        (altMap : PKey → List PKey) (engines : List String)
        (resp : String → EngineResp) (b : List VMsg) (ra : Option ℚ)
        (c : List String),
      ¬ (0 : ℤ) < rate_limit_wait_seconds st.rate_limited_until now →
      build_bundle bh payer tipAcct firstTx addl altMap = some b →
      bundle_locks_vote_account b = false →
      submit_loop resp st.engine_cooldown now engines false none [] =
        .rateLimited ra c →
      send_bundle_full st now bh payer tipAcct firstTx addl altMap engines resp =
        ⟨.rateLimited, (set_all_engines_cooldown st engines ra now).1, some b, c⟩) := by
  refine ⟨?_, ?_, ?_⟩
  · intro st urls ra now
    refine ⟨?_, le_max_left _ _, ?_⟩
    · intro u hu
      simp [set_all_engines_cooldown, set_rate_limit_cooldown, hu]
    · simp only [set_all_engines_cooldown, set_rate_limit_cooldown]
      exact le_max_right _ _
  · intro st now bh payer tipAcct firstTx addl altMap engines resp h
    have hq : (1 : ℚ) ≤ st.rate_limited_until - now := h
    have hfloor : (1 : ℤ) ≤ ⌊st.rate_limited_until - now⌋ := by
      rw [Int.le_floor]
      exact_mod_cast hq
    have hgate : (0 : ℤ) < rate_limit_wait_seconds st.rate_limited_until now := by
      unfold rate_limit_wait_seconds pyInt
      rw [if_pos (by linarith)]
      have : (1 : ℤ) ≤ max 0 ⌊st.rate_limited_until - now⌋ :=
        le_trans hfloor (le_max_right _ _)
      omega
    simp only [send_bundle_full, if_pos hgate]
    exact ⟨trivial, trivial, trivial⟩
  · intro st now bh payer tipAcct firstTx addl altMap engines resp b ra c
      hgate hb hguard hloop
    simp only [send_bundle_full, hgate, if_false, hb, hguard, Bool.false_eq_true,
      hloop]

/-- All endpoints answer HTTP 429. -/
def respAll429 : String → EngineResp := fun _ => ⟨429, none, none, none⟩

/-- Witness for C8 amended: with every endpoint rate-limiting, the call
returns RATE_LIMITED and applies the shared global cooldown. -/
theorem rate_limit_cooldown_spec_witness :
    send_bundle_full ⟨0, fun _ => 0⟩ 0 "newbh" "P" (some "T")
      (some (.legacy lmOld)) [] (fun _ => []) ["e1", "e2"] respAll429 =
    ⟨.rateLimited, (set_all_engines_cooldown ⟨0, fun _ => 0⟩ ["e1", "e2"] none 0).1,
     some [.legacy lmOld, .v0 tipMsgC], ["e1", "e2"]⟩ := by
  have hcool : ¬ ((0 : ℚ) < 0) := by norm_num
  have htip : try_compile "P" [transfer_ix "P" "T" tip_lamports] [] "newbh" =
      some tipMsgC := rfl
  exact rate_limit_cooldown_spec.2.2 ⟨0, fun _ => 0⟩ 0 "newbh" "P" (some "T")
    (some (.legacy lmOld)) [] (fun _ => []) ["e1", "e2"] respAll429
    [.legacy lmOld, .v0 tipMsgC] none ["e1", "e2"]
    (by norm_num [rate_limit_wait_seconds, pyInt])
    (by simp only [build_bundle, rebuild_message, rebuild_all, htip,
      List.nil_append, Option.map_some'])
    (by decide)
    (by simp [submit_loop, respAll429, hcool])

/-! ### C10: ATA-create/close screening is never applied by `main` -/

/-- A swap transaction whose message invokes the Associated Token
Account program (an ATA-creation instruction). -/
def msgAta : MsgV0 := ⟨⟨1, 0, 0⟩, ["P", ATA_PROGRAM_ID], "oldbh", [⟨1, [0], []⟩], []⟩

/-- An unobjectionable second swap message. -/
def msgSell : MsgV0 := ⟨⟨1, 0, 0⟩, ["P", "Q"], "oldbh", [⟨1, [0], [7]⟩], []⟩

/-- The decode map for the two swap blobs `main` fetches. -/
def decodeC : String → Option VMsg := fun s =>
  if s = "BUY" then some (.v0 msgAta)
  else if s = "SELL" then some (.v0 msgSell)
  else none

/-- C10 (code bug): `swap_tx_has_ata_create_or_close` flags the "BUY"
swap blob as containing an ATA-creation instruction, yet `main`'s
submission step — which never consults that checker — still bundles it
and submits the bundle: the rebuilt first member of the accepted bundle
still invokes the ATA program. -/
theorem ata_check_never_called_bug :
    msg_has_ata_create_or_close (decodeC "BUY") = true ∧
    (main_submit_step ⟨0, fun _ => 0⟩ 0 "newbh" "P" (some "T") decodeC "BUY" "SELL"
        (fun _ => []) ["e"] (fun _ => ⟨200, none, some "bid", none⟩)).outcome =
      .accepted "bid" ∧
    (main_submit_step ⟨0, fun _ => 0⟩ 0 "newbh" "P" (some "T") decodeC "BUY" "SELL"
        (fun _ => []) ["e"] (fun _ => ⟨200, none, some "bid", none⟩)).bundle =
      some [.v0 ⟨⟨1, 0, 1⟩, ["P", ATA_PROGRAM_ID], "newbh", [⟨1, [0], []⟩], []⟩,
            .v0 ⟨⟨1, 0, 1⟩, ["P", "Q"], "newbh", [⟨1, [0], [7]⟩], []⟩,
            .v0 tipMsgC] ∧
    msg_has_ata_create_or_close
      (some (.v0 ⟨⟨1, 0, 1⟩, ["P", ATA_PROGRAM_ID], "newbh", [⟨1, [0], []⟩], []⟩)) =
      true := by
  have hgate : ¬ (0 : ℤ) < rate_limit_wait_seconds (0 : ℚ) 0 := by
    norm_num [rate_limit_wait_seconds, pyInt]
  have hcool : ¬ ((0 : ℚ) < 0) := by norm_num
  have hbd : build_bundle "newbh" "P" (some "T") (decodeC "BUY") [decodeC "SELL"]
      (fun _ => []) =
      some [.v0 ⟨⟨1, 0, 1⟩, ["P", ATA_PROGRAM_ID], "newbh", [⟨1, [0], []⟩], []⟩,
            .v0 ⟨⟨1, 0, 1⟩, ["P", "Q"], "newbh", [⟨1, [0], [7]⟩], []⟩,
            .v0 tipMsgC] := rfl
  have hguard : bundle_locks_vote_account
      [.v0 ⟨⟨1, 0, 1⟩, ["P", ATA_PROGRAM_ID], "newbh", [⟨1, [0], []⟩], []⟩,
       .v0 ⟨⟨1, 0, 1⟩, ["P", "Q"], "newbh", [⟨1, [0], [7]⟩], []⟩,
       .v0 tipMsgC] = false := by decide
  have hloop : submit_loop (fun _ => (⟨200, none, some "bid", none⟩ : EngineResp))
      (fun _ => (0 : ℚ)) 0 ["e"] false none [] = .accepted "bid" ["e"] := by
    simp [submit_loop, hcool]
  have hsend : main_submit_step ⟨0, fun _ => 0⟩ 0 "newbh" "P" (some "T") decodeC
      "BUY" "SELL" (fun _ => []) ["e"]
      (fun _ => ⟨200, none, some "bid", none⟩) =
      ⟨.accepted "bid", ⟨0, fun _ => 0⟩,
       some [.v0 ⟨⟨1, 0, 1⟩, ["P", ATA_PROGRAM_ID], "newbh", [⟨1, [0], []⟩], []⟩,
             .v0 ⟨⟨1, 0, 1⟩, ["P", "Q"], "newbh", [⟨1, [0], [7]⟩], []⟩,
             .v0 tipMsgC], ["e"]⟩ := by
    simp only [main_submit_step, send_bundle_full, hgate, if_false, hbd, hguard,
      Bool.false_eq_true, hloop]
  exact ⟨by decide, by rw [hsend], by rw [hsend], by decide⟩

/-! ### Characterization of the compiled key map (shared by C2 and C4) -/

/-- Flags recorded for a key in a key-meta association list (the
all-false default when absent). -/
def ckLookup (l : List (PKey × CKMeta)) (k : PKey) : CKMeta :=
  match l.find? (fun e => decide (e.1 = k)) with
  | some e => e.2
  | none => ⟨false, false, false⟩

/-- Keys of a key-meta association list. -/
def ckKeys (l : List (PKey × CKMeta)) : List PKey := l.map (fun e => e.1)

/-- Lookup at a matching head. -/
theorem ckLookup_cons_hit (e : PKey × CKMeta) (t : List (PKey × CKMeta)) (q : PKey)
    (h : e.1 = q) : ckLookup (e :: t) q = e.2 := by
  simp [ckLookup, List.find?_cons_of_pos, h]

/-- Lookup past a non-matching head. -/
theorem ckLookup_cons_miss (e : PKey × CKMeta) (t : List (PKey × CKMeta)) (q : PKey)
    (h : ¬ e.1 = q) : ckLookup (e :: t) q = ckLookup t q := by
  simp only [ckLookup]
  rw [List.find?_cons_of_neg _ (by simp [h])]

/-- How `upsertCK` changes the lookup. -/
theorem ckLookup_upsertCK (k : PKey) (f : CKMeta → CKMeta) :
    ∀ (l : List (PKey × CKMeta)) (q : PKey),
      ckLookup (upsertCK k f l) q =
        if q = k then f (ckLookup l q) else ckLookup l q := by
  intro l
  induction l with
  | nil =>
    intro q
    rw [show upsertCK k f [] = [(k, f ⟨false, false, false⟩)] from rfl]
    by_cases hqk : q = k
    · rw [ckLookup_cons_hit (k, f ⟨false, false, false⟩) [] q hqk.symm, if_pos hqk]
      rfl
    · rw [ckLookup_cons_miss (k, f ⟨false, false, false⟩) [] q (fun h => hqk h.symm),
        if_neg hqk]
  | cons e t ih =>
    intro q
    by_cases hek : e.1 = k
    · simp only [upsertCK, if_pos hek]
      by_cases he : e.1 = q
      · have hqk : q = k := he.symm.trans hek
        rw [ckLookup_cons_hit (e.1, f e.2) t q he, ckLookup_cons_hit e t q he,
          if_pos hqk]
      · have hqk : ¬ q = k := fun h => he (hek.trans h.symm)
        rw [ckLookup_cons_miss (e.1, f e.2) t q he, ckLookup_cons_miss e t q he,
          if_neg hqk]
    · simp only [upsertCK, if_neg hek]
      by_cases he : e.1 = q
      · have hqk : ¬ q = k := fun h => hek (he.trans h)
        rw [ckLookup_cons_hit e (upsertCK k f t) q he, ckLookup_cons_hit e t q he,
          if_neg hqk]
      · rw [ckLookup_cons_miss e (upsertCK k f t) q he, ckLookup_cons_miss e t q he]
        exact ih q

/-- `upsertCK` keeps old keys and at most adds `k`. -/
theorem ckKeys_upsertCK (k : PKey) (f : CKMeta → CKMeta) :
    ∀ (l : List (PKey × CKMeta)) (q : PKey),
      q ∈ ckKeys (upsertCK k f l) ↔ q = k ∨ q ∈ ckKeys l := by
  intro l
  induction l with
  | nil => intro q; simp [upsertCK, ckKeys]
  | cons e t ih =>
    intro q
    by_cases hek : e.1 = k
    · simp only [upsertCK, if_pos hek, ckKeys, List.map_cons, List.mem_cons]
      constructor
      · rintro (h | h)
        · exact Or.inr (Or.inl h)
        · exact Or.inr (Or.inr h)
      · rintro (h | h | h)
        · exact Or.inl (h.trans hek.symm)
        · exact Or.inl h
        · exact Or.inr h
    · simp only [upsertCK, if_neg hek, ckKeys, List.map_cons, List.mem_cons]
      rw [show (upsertCK k f t).map (fun e => e.1) = ckKeys (upsertCK k f t) from rfl]
      rw [ih q]
      simp only [ckKeys]
      tauto

/-- `upsertCK` preserves distinctness of keys. -/
theorem ckKeys_upsertCK_nodup (k : PKey) (f : CKMeta → CKMeta) :
    ∀ l : List (PKey × CKMeta), (ckKeys l).Nodup → (ckKeys (upsertCK k f l)).Nodup := by
  intro l
  induction l with
  | nil => intro _; simp [upsertCK, ckKeys]
  | cons e t ih =>
    intro hnd
    simp only [ckKeys, List.map_cons, List.nodup_cons] at hnd
    by_cases hek : e.1 = k
    · simp only [upsertCK, if_pos hek, ckKeys, List.map_cons, List.nodup_cons]
      exact hnd
    · simp only [upsertCK, if_neg hek, ckKeys, List.map_cons, List.nodup_cons]
      refine ⟨?_, ih hnd.2⟩
      intro hmem
      rcases (ckKeys_upsertCK k f t e.1).mp hmem with h | h
      · exact hek h
      · exact hnd.1 h

/-- Does one instruction carry a signer meta for `k`? -/
def metaSigAny (ix : Ix) (k : PKey) : Bool :=
  ix.accounts.any (fun a => decide (a.pubkey = k) && a.is_signer)

/-- Does one instruction carry a writable meta for `k`? -/
def metaWriAny (ix : Ix) (k : PKey) : Bool :=
  ix.accounts.any (fun a => decide (a.pubkey = k) && a.is_writable)

/-- Do any of the instructions carry a signer meta for `k`? -/
def sigAny (instrs : List Ix) (k : PKey) : Bool := instrs.any (fun ix => metaSigAny ix k)

/-- Do any of the instructions carry a writable meta for `k`? -/
def wriAny (instrs : List Ix) (k : PKey) : Bool := instrs.any (fun ix => metaWriAny ix k)

/-- Is `k` some instruction's program id? -/
def invAny (instrs : List Ix) (k : PKey) : Bool :=
  instrs.any (fun ix => decide (ix.program_id = k))

/-- The meta fold of one instruction ORs that instruction's flags into
the map. -/
theorem ckLookup_meta_fold (q : PKey) :
    ∀ (accs : List AcctMeta) (l : List (PKey × CKMeta)),
      ckLookup (accs.foldl (fun l a => upsertCK a.pubkey
        (fun c => { c with is_signer := c.is_signer || a.is_signer,
                           is_writable := c.is_writable || a.is_writable }) l) l) q =
      ⟨(ckLookup l q).is_signer ||
          accs.any (fun a => decide (a.pubkey = q) && a.is_signer),
       (ckLookup l q).is_writable ||
          accs.any (fun a => decide (a.pubkey = q) && a.is_writable),
       (ckLookup l q).is_invoked⟩ := by
  intro accs
  induction accs with
  | nil => intro l; simp
  | cons a t ih =>
    intro l
    simp only [List.foldl_cons, List.any_cons]
    rw [ih]
    rw [ckLookup_upsertCK]
    by_cases hq : q = a.pubkey
    · rw [if_pos hq]
      subst hq
      simp [Bool.or_assoc]
    · rw [if_neg hq]
      have hne : ¬ a.pubkey = q := fun h => hq h.symm
      have : decide (a.pubkey = q) = false := by simp [hne]
      simp [this]

/-- `addIxKeys` ORs one instruction's flags into the map. -/
theorem ckLookup_addIxKeys (l : List (PKey × CKMeta)) (ix : Ix) (q : PKey) :
    ckLookup (addIxKeys l ix) q =
      ⟨(ckLookup l q).is_signer || metaSigAny ix q,
       (ckLookup l q).is_writable || metaWriAny ix q,
       (ckLookup l q).is_invoked || decide (ix.program_id = q)⟩ := by
  simp only [addIxKeys]
  rw [ckLookup_meta_fold]
  rw [ckLookup_upsertCK]
  by_cases hq : q = ix.program_id
  · rw [if_pos hq]
    subst hq
    simp [metaSigAny, metaWriAny]
  · rw [if_neg hq]
    have hne : ¬ ix.program_id = q := fun h => hq h.symm
    have : decide (ix.program_id = q) = false := by simp [hne]
    simp [this, metaSigAny, metaWriAny]

/-- The key map compiled by `compile_keys`: the payer is a writable
signer, every other flag is the OR over the instructions' metas, and a
key is invoked exactly when it is some instruction's program id. -/
theorem ckLookup_compile_keys (payer : PKey) (instrs : List Ix) (q : PKey) :
    ckLookup (compile_keys payer instrs) q =
      ⟨decide (q = payer) || sigAny instrs q,
       decide (q = payer) || wriAny instrs q,
       invAny instrs q⟩ := by
  suffices h : ∀ (il : List Ix) (l : List (PKey × CKMeta)),
      ckLookup (il.foldl addIxKeys l) q =
        ⟨(ckLookup l q).is_signer || sigAny il q,
         (ckLookup l q).is_writable || wriAny il q,
         (ckLookup l q).is_invoked || invAny il q⟩ by
    rw [compile_keys, h]
    have hbase : ckLookup [(payer, (⟨true, true, false⟩ : CKMeta))] q =
        if q = payer then ⟨true, true, false⟩ else ⟨false, false, false⟩ := by
      by_cases hq : q = payer
      · rw [ckLookup_cons_hit (payer, (⟨true, true, false⟩ : CKMeta)) [] q hq.symm,
          if_pos hq]
      · rw [ckLookup_cons_miss (payer, (⟨true, true, false⟩ : CKMeta)) [] q
          (fun h => hq h.symm), if_neg hq]
        rfl
    rw [hbase]
    by_cases hq : q = payer
    · simp [hq]
    · simp [hq]
  intro il
  induction il with
  | nil => intro l; simp [sigAny, wriAny, invAny]
  | cons ix t ih =>
    intro l
    simp only [List.foldl_cons]
    rw [ih, ckLookup_addIxKeys]
    simp [sigAny, wriAny, invAny, Bool.or_assoc]

/-- Keys present in the compiled key map: the payer, the program ids
and the meta keys. -/
theorem ckKeys_compile_keys (payer : PKey) (instrs : List Ix) (q : PKey) :
    q ∈ ckKeys (compile_keys payer instrs) ↔
      q = payer ∨ ∃ ix ∈ instrs, ix.program_id = q ∨ ∃ a ∈ ix.accounts, a.pubkey = q := by
  suffices h : ∀ (il : List Ix) (l : List (PKey × CKMeta)),
      q ∈ ckKeys (il.foldl addIxKeys l) ↔
        q ∈ ckKeys l ∨ ∃ ix ∈ il, ix.program_id = q ∨ ∃ a ∈ ix.accounts, a.pubkey = q by
    rw [compile_keys, h]
    simp [ckKeys]
  intro il
  induction il with
  | nil => intro l; simp
  | cons ix t ih =>
    intro l
    simp only [List.foldl_cons]
    rw [ih]
    have haddix : ∀ l', q ∈ ckKeys (addIxKeys l' ix) ↔
        q ∈ ckKeys l' ∨ ix.program_id = q ∨ ∃ a ∈ ix.accounts, a.pubkey = q := by
      intro l'
      simp only [addIxKeys]
      clear ih
      generalize hstart : upsertCK ix.program_id (fun c => { c with is_invoked := true }) l' = l0
      have hl0 : q ∈ ckKeys l0 ↔ q ∈ ckKeys l' ∨ ix.program_id = q := by
        rw [← hstart, ckKeys_upsertCK]
        constructor
        · rintro (h | h)
          · exact Or.inr h.symm
          · exact Or.inl h
        · rintro (h | h)
          · exact Or.inr h
          · exact Or.inl h.symm
      rw [show (∃ a ∈ ix.accounts, a.pubkey = q) ↔
          (∃ a ∈ ix.accounts, a.pubkey = q) from Iff.rfl]
      have hfold : ∀ (accs : List AcctMeta) (lb : List (PKey × CKMeta)),
          q ∈ ckKeys (accs.foldl (fun l a => upsertCK a.pubkey
            (fun c => { c with is_signer := c.is_signer || a.is_signer,
                               is_writable := c.is_writable || a.is_writable }) l) lb) ↔
          q ∈ ckKeys lb ∨ ∃ a ∈ accs, a.pubkey = q := by
        intro accs
        induction accs with
        | nil => intro lb; simp
        | cons a t2 ih2 =>
          intro lb
          simp only [List.foldl_cons]
          rw [ih2]
          rw [ckKeys_upsertCK]
          constructor
          · rintro ((h | h) | h)
            · exact Or.inr ⟨a, by simp, h.symm⟩
            · exact Or.inl h
            · obtain ⟨a2, ha2, he⟩ := h
              exact Or.inr ⟨a2, by simp [ha2], he⟩
          · rintro (h | ⟨a2, ha2, he⟩)
            · exact Or.inl (Or.inr h)
            · rcases List.mem_cons.mp ha2 with rfl | h2
              · exact Or.inl (Or.inl he.symm)
              · exact Or.inr ⟨a2, h2, he⟩
      rw [hfold, hl0]
      tauto
    rw [haddix]
    constructor
    · rintro (h | h)
      · rcases h with h | h | h
        · exact Or.inl h
        · exact Or.inr ⟨ix, by simp, Or.inl h⟩
        · exact Or.inr ⟨ix, by simp, Or.inr h⟩
      · obtain ⟨ix2, hix2, hh⟩ := h
        exact Or.inr ⟨ix2, by simp [hix2], hh⟩
    · rintro (h | ⟨ix2, hix2, hh⟩)
      · exact Or.inl (Or.inl h)
      · rcases List.mem_cons.mp hix2 with rfl | h2
        · exact Or.inl (Or.inr hh)
        · exact Or.inr ⟨ix2, h2, hh⟩

/-- The compiled key map has distinct keys. -/
theorem ckKeys_compile_keys_nodup (payer : PKey) (instrs : List Ix) :
    (ckKeys (compile_keys payer instrs)).Nodup := by
  suffices h : ∀ (il : List Ix) (l : List (PKey × CKMeta)),
      (ckKeys l).Nodup → (ckKeys (il.foldl addIxKeys l)).Nodup by
    exact h instrs _ (by simp [ckKeys])
  intro il
  induction il with
  | nil => intro l hl; simpa using hl
  | cons ix t ih =>
    intro l hl
    simp only [List.foldl_cons]
    refine ih _ ?_
    simp only [addIxKeys]
    have hfold : ∀ (accs : List AcctMeta) (lb : List (PKey × CKMeta)),
        (ckKeys lb).Nodup →
        (ckKeys (accs.foldl (fun l a => upsertCK a.pubkey
          (fun c => { c with is_signer := c.is_signer || a.is_signer,
                             is_writable := c.is_writable || a.is_writable }) l) lb)).Nodup := by
      intro accs
      induction accs with
      | nil => intro lb h; simpa using h
      | cons a t2 ih2 =>
        intro lb h
        simp only [List.foldl_cons]
        exact ih2 _ (ckKeys_upsertCK_nodup _ _ _ h)
    exact hfold _ _ (ckKeys_upsertCK_nodup _ _ _ hl)

/-- In a map with distinct keys, each entry is what lookup returns. -/
theorem ckLookup_mem : ∀ (l : List (PKey × CKMeta)), (ckKeys l).Nodup →
    ∀ e ∈ l, ckLookup l e.1 = e.2 := by
  intro l
  induction l with
  | nil => intro _ e he; simp at he
  | cons hd t ih =>
    intro hnd e he
    simp only [ckKeys, List.map_cons, List.nodup_cons] at hnd
    rcases List.mem_cons.mp he with rfl | het
    · exact ckLookup_cons_hit e t e.1 rfl
    · have hne : ¬ hd.1 = e.1 := by
        intro h
        exact hnd.1 (h ▸ List.mem_map_of_mem (fun x => x.1) het)
      rw [ckLookup_cons_miss hd t e.1 hne]
      exact ih hnd.2 e het

/-- `keyIdx` finds the key it indexes. -/
theorem keyIdx_get? (k : PKey) : ∀ l : List PKey, k ∈ l → l.get? (keyIdx k l) = some k := by
  intro l
  induction l with
  | nil => intro h; simp at h
  | cons h t ih =>
    intro hm
    by_cases hh : h = k
    · simp [keyIdx, hh]
    · simp only [keyIdx, if_neg hh]
      rcases List.mem_cons.mp hm with rfl | hmt
      · exact absurd rfl hh
      · simpa using ih hmt

/-- Every writable lookup index of the produced lookups resolves, via
the given table map, to a key whose compiled flags are
non-signer-writable. -/
def LookupsResolveDrained (km : List (PKey × CKMeta)) (altMap : PKey → List PKey)
    (lookups : List TableLookup) : Prop :=
  ∀ li ∈ lookups, ∀ i ∈ li.writable_indexes, ∃ k,
    (altMap li.account_key).get? i = some k ∧
    (ckLookup km k).is_signer = false ∧ (ckLookup km k).is_writable = true

/-- The drain fold preserves: the remaining static entries come from
the original map, and every produced lookup resolves as drained. -/
theorem drain_fold_invariant (km : List (PKey × CKMeta)) (altMap : PKey → List PKey)
    (hnd : (ckKeys km).Nodup) :
    ∀ (alts : List ALTAccount), (∀ alt ∈ alts, alt.addresses = altMap alt.key) →
    ∀ (acc : DrainAcc), (∀ e ∈ acc.rest, e ∈ km) →
      LookupsResolveDrained km altMap acc.lookups →
      (∀ e ∈ (alts.foldl drainTable acc).rest, e ∈ km) ∧
      LookupsResolveDrained km altMap (alts.foldl drainTable acc).lookups := by
  intro alts
  induction alts with
  | nil => intro _ acc h1 h2; exact ⟨h1, h2⟩
  | cons alt rest ih =>
    intro halts acc h1 h2
    simp only [List.foldl_cons]
    refine ih (fun a ha => halts a (by simp [ha])) (drainTable acc alt) ?_ ?_
    · intro e he
      simp only [drainTable] at he
      split at he
      · exact h1 e he
      · exact h1 e (List.mem_of_mem_filter he)
    · intro li hli i hi
      simp only [drainTable] at hli
      split at hli
      · exact h2 li hli i hi
      · rcases List.mem_append.mp hli with hold | hnew
        · exact h2 li hold i hi
        · rcases List.mem_singleton.mp hnew with rfl
          simp only [List.mem_map] at hi
          obtain ⟨e, hewd, rfl⟩ := hi
          have hcond := List.of_mem_filter hewd
          simp only [Bool.and_eq_true, Bool.not_eq_true', decide_eq_true_eq] at hcond
          obtain ⟨⟨⟨hsig, hinv⟩, hwri⟩, hmemaddr⟩ := hcond
          have hrest : e ∈ acc.rest := List.mem_of_mem_filter hewd
          have hkm : e ∈ km := h1 e hrest
          have hflags : ckLookup km e.1 = e.2 := ckLookup_mem km hnd e hkm
          refine ⟨e.1, ?_, by rw [hflags]; exact hsig, by rw [hflags]; exact hwri⟩
          rw [show (⟨alt.key, _, _⟩ : TableLookup).account_key = alt.key from rfl]
          rw [← halts alt (by simp)]
          exact keyIdx_get? e.1 alt.addresses hmemaddr

/-- The lookup entries of a `try_compile` result resolve as drained. -/
theorem try_compile_lookups_drained (payer : PKey) (instrs : List Ix)
    (alts : List ALTAccount) (bh : String) (m2 : MsgV0) (altMap : PKey → List PKey)
    (halts : ∀ alt ∈ alts, alt.addresses = altMap alt.key)
    (htc : try_compile payer instrs alts bh = some m2) :
    LookupsResolveDrained (compile_keys payer instrs) altMap
      m2.address_table_lookups := by
  have hinv := drain_fold_invariant (compile_keys payer instrs) altMap
    (ckKeys_compile_keys_nodup payer instrs) alts halts
    ⟨compile_keys payer instrs, [], [], []⟩ (fun e he => he)
    (by intro li hli; simp at hli)
  simp only [try_compile] at htc
  split at htc
  · simp only [Option.some.injEq] at htc
    rw [← htc]
    exact hinv.2
  · simp at htc

/-- Instructions reconstructed by the decompiler never carry a writable
meta for a vote account. -/
theorem decompile_vote_readonly (m : MsgV0) (full_keys : List PKey) (wfl : List Bool) :
    ∀ ix ∈ decompile_to_instructions m full_keys wfl, ∀ a ∈ ix.accounts,
      is_vote_account a.pubkey = true → a.is_writable = false := by
  intro ix hix a ha hvote
  simp only [decompile_to_instructions, List.mem_filterMap] at hix
  obtain ⟨ci, _, hci⟩ := hix
  split at hci
  · simp only [Option.some.injEq] at hci
    rw [← hci] at ha
    simp only [List.mem_filterMap] at ha
    obtain ⟨i, _, hia⟩ := ha
    split at hia
    · simp only [Option.some.injEq] at hia
      rw [← hia] at hvote ⊢
      simp only at hvote ⊢
      rw [if_pos hvote]
    · simp at hia
  · simp at hci

/-- `_build_full_account_keys_and_alt_accounts` builds each
`AddressLookupTableAccount` from the fetched table contents. -/
theorem build_full_alts_addresses (m : MsgV0) (altMap : PKey → List PKey) :
    ∀ alt ∈ (build_full_accounts m altMap).2.1, alt.addresses = altMap alt.key := by
  suffices h : ∀ (ls : List TableLookup)
      (acc : List PKey × List ALTAccount × List Bool),
      (∀ alt ∈ acc.2.1, alt.addresses = altMap alt.key) →
      ∀ alt ∈ (ls.foldl (fun acc l =>
        let addrs := altMap l.account_key
        let wKeys := (l.writable_indexes.filter (fun i => i < addrs.length)).map
          (fun i => addrs.getD i "")
        let rKeys := (l.readonly_indexes.filter (fun i => i < addrs.length)).map
          (fun i => addrs.getD i "")
        (acc.1 ++ wKeys ++ rKeys,
         acc.2.1 ++ [⟨l.account_key, addrs⟩],
         acc.2.2 ++ wKeys.map (fun _ => true) ++ rKeys.map (fun _ => false))) acc).2.1,
        alt.addresses = altMap alt.key by
    intro alt halt
    exact h m.address_table_lookups _ (by intro a ha; simp at ha) alt halt
  intro ls
  induction ls with
  | nil => intro acc hacc alt halt; exact hacc alt halt
  | cons l rest ih =>
    intro acc hacc alt halt
    simp only [List.foldl_cons] at halt
    refine ih _ ?_ alt halt
    intro a ha
    rcases List.mem_append.mp ha with h1 | h2
    · exact hacc a h1
    · rcases List.mem_singleton.mp h2 with rfl
      rfl

/-- With no lookup tables supplied, `try_compile` produces no lookup
entries. -/
theorem try_compile_nil_alts (payer : PKey) (instrs : List Ix) (bh : String)
    (m2 : MsgV0) (htc : try_compile payer instrs [] bh = some m2) :
    m2.address_table_lookups = [] := by
  simp only [try_compile] at htc
  split at htc
  · simp only [Option.some.injEq] at htc
    rw [← htc]
    rfl
  · simp at htc

/-! ### C2: the restricted-account (vote) guard -/

/-- Unpacking a positive `wriAny`. -/
theorem wriAny_exists (instrs : List Ix) (k : PKey) (h : wriAny instrs k = true) :
    ∃ ix ∈ instrs, ∃ a ∈ ix.accounts, a.pubkey = k ∧ a.is_writable = true := by
  simp only [wriAny, metaWriAny, List.any_eq_true, Bool.and_eq_true,
    decide_eq_true_eq] at h
  obtain ⟨ix, hix, a, ha, hk, hw⟩ := h
  exact ⟨ix, hix, a, ha, hk, hw⟩

/-- When no instruction meta write-locks a vote account, no writable
lookup entry of a `try_compile` result resolves to a vote account. -/
theorem try_compile_no_vote_writable_lookup (payer : PKey) (instrs : List Ix)
    (alts : List ALTAccount) (bh : String) (m2 : MsgV0) (altMap : PKey → List PKey)
    (hmeta : ∀ ix ∈ instrs, ∀ a ∈ ix.accounts,
      is_vote_account a.pubkey = true → a.is_writable = false)
    (halts : ∀ alt ∈ alts, alt.addresses = altMap alt.key)
    (htc : try_compile payer instrs alts bh = some m2) :
    ∀ li ∈ m2.address_table_lookups, ∀ i ∈ li.writable_indexes, ∀ k,
      (altMap li.account_key).get? i = some k → is_vote_account k = false := by
  intro li hli i hi k hk
  obtain ⟨k', hk', hsig, hwri⟩ :=
    try_compile_lookups_drained payer instrs alts bh m2 altMap halts htc li hli i hi
  have hkk : k' = k := Option.some.inj (hk'.symm.trans hk)
  subst hkk
  rw [ckLookup_compile_keys] at hsig hwri
  simp only [Bool.or_eq_false_iff, decide_eq_false_iff_not] at hsig
  simp only at hwri
  rw [Bool.or_eq_true] at hwri
  rcases hwri with hp | hw
  · exact absurd (of_decide_eq_true hp) hsig.1
  · by_contra hv
    rw [Bool.not_eq_false] at hv
    obtain ⟨ix, hix, a, ha, hak, haw⟩ := wriAny_exists instrs k' hw
    have := hmeta ix hix a ha (by rw [hak]; exact hv)
    rw [this] at haw
    exact Bool.false_ne_true haw

/-- The lookup-table references a versioned message carries. -/
def vmsgLookups : VMsg → List TableLookup
  | .legacy _ => []
  | .v0 m => m.address_table_lookups

/-- If no writable lookup entry of a transaction resolves to a vote
account, then a vote account among its final writable accounts must sit
in the static section, where the step-4.1 guard sees it. -/
theorem final_writable_vote_implies_guard (altMap : PKey → List PKey) (t : VMsg)
    (hlk : ∀ li ∈ vmsgLookups t, ∀ i ∈ li.writable_indexes, ∀ k,
      (altMap li.account_key).get? i = some k → is_vote_account k = false) :
    ∀ k ∈ final_writable_accounts altMap t, is_vote_account k = true →
      tx_locks_vote_account t = true := by
  intro k hk hv
  cases t with
  | legacy lm =>
    simp only [final_writable_accounts, List.mem_filterMap] at hk
    obtain ⟨j, hj, hcond⟩ := hk
    split at hcond
    · simp only [Option.some.injEq] at hcond
      subst hcond
      simp only [tx_locks_vote_account, List.any_eq_true]
      refine ⟨j, hj, ?_⟩
      rename_i hw
      simp only [VMsg.staticKeys, VMsg.msgHeader]
      rw [hv, hw]
      rfl
    · simp at hcond
  | v0 m =>
    simp only [final_writable_accounts, List.mem_append] at hk
    rcases hk with hst | hlkm
    · simp only [List.mem_filterMap] at hst
      obtain ⟨j, hj, hcond⟩ := hst
      split at hcond
      · simp only [Option.some.injEq] at hcond
        subst hcond
        simp only [tx_locks_vote_account, List.any_eq_true]
        refine ⟨j, hj, ?_⟩
        rename_i hw
        simp only [VMsg.staticKeys, VMsg.msgHeader]
        rw [hv, hw]
        rfl
      · simp at hcond
    · simp only [List.mem_flatMap] at hlkm
      obtain ⟨li, hli, hk2⟩ := hlkm
      simp only [List.mem_filterMap] at hk2
      obtain ⟨i, hi, hres⟩ := hk2
      have := hlk li hli i hi k hres
      rw [hv] at this
      simp at this

/-- Inversion of a successful V0 rebuild. -/
theorem rebuild_ok_v0_inv (bh : String) (altMap : PKey → List PKey) (m : MsgV0)
    (v : VMsg) (h : rebuild_message bh altMap (.v0 m) = .ok v) :
    ∃ (payer : PKey) (rest : List PKey) (m2 : MsgV0),
      m.account_keys = payer :: rest ∧ v = .v0 m2 ∧
      try_compile payer
        (decompile_to_instructions m (build_full_accounts m altMap).1
          (build_full_accounts m altMap).2.2)
        (build_full_accounts m altMap).2.1 bh = some m2 := by
  simp only [rebuild_message] at h
  cases hk : m.account_keys with
  | nil => rw [hk] at h; simp at h
  | cons payer rest =>
    rw [hk] at h
    simp only [] at h
    split at h
    · simp at h
    · cases htc : try_compile payer
          (decompile_to_instructions m (build_full_accounts m altMap).1
            (build_full_accounts m altMap).2.2)
          (build_full_accounts m altMap).2.1 bh with
      | none => rw [htc] at h; simp at h
      | some m2 =>
        rw [htc] at h
        simp only [Except.ok.injEq] at h
        exact ⟨payer, rest, m2, rfl, h.symm, htc⟩

/-- Every member of a built bundle is either the rebuild of some input
transaction or the tip transaction. -/
theorem build_bundle_members (bh : String) (payer : PKey) (tipAcct : Option PKey)
    (firstTx : Option VMsg) (addl : List (Option VMsg)) (altMap : PKey → List PKey)
    (b : List VMsg) (hb : build_bundle bh payer tipAcct firstTx addl altMap = some b) :
    ∀ t ∈ b, (∃ tin, rebuild_message bh altMap tin = .ok t) ∨
      ∃ (tip : PKey) (tm : MsgV0), tipAcct = some tip ∧ t = .v0 tm ∧
        try_compile payer [transfer_ix payer tip tip_lamports] [] bh = some tm := by
  cases firstTx with
  | none => simp [build_bundle] at hb
  | some t1 =>
    simp only [build_bundle] at hb
    cases hr1 : rebuild_message bh altMap t1 with
    | error e => rw [hr1] at hb; simp at hb
    | ok t1r =>
      rw [hr1] at hb
      cases hra : rebuild_all bh altMap addl with
      | none => rw [hra] at hb; simp at hb
      | some addlr =>
        rw [hra] at hb
        cases tipAcct with
        | none => simp at hb
        | some tip =>
          simp only [] at hb
          cases htc : try_compile payer [transfer_ix payer tip tip_lamports] [] bh with
          | none => rw [htc] at hb; simp at hb
          | some tipM =>
            rw [htc] at hb
            simp only [Option.some.injEq] at hb
            subst hb
            intro t ht
            rcases List.mem_cons.mp ht with rfl | ht'
            · exact Or.inl ⟨t1, hr1⟩
            · rcases List.mem_append.mp ht' with ht'' | htip
              · obtain ⟨tin, _, hok⟩ :=
                  (rebuild_all_spec bh altMap addl addlr hra).2 t ht''
                exact Or.inl ⟨tin, hok⟩
              · rcases List.mem_singleton.mp htip with rfl
                exact Or.inr ⟨tip, tipM, rfl, rfl, htc⟩

/-- C2: for every constructed bundle, if any member transaction's final
resolved account list (static keys plus lookup-table-resolved
addresses, resolved against the same table contents used during
construction) places a vote account in a writable position, the whole
send attempt returns the terminal outcome VOTE_ACCOUNT_LOCKED — before
any serialization or endpoint contact — rather than a retryable
outcome. -/
theorem vote_guard_spec (st : JitoState) (now : ℚ) (bh : String) (payer : PKey)
    (tipAcct : Option PKey) (firstTx : Option VMsg) (addl : List (Option VMsg))
    (altMap : PKey → List PKey) (engines : List String) (resp : String → EngineResp)
    (b : List VMsg)
    (hgate : ¬ (0 : ℤ) < rate_limit_wait_seconds st.rate_limited_until now)
    (hb : build_bundle bh payer tipAcct firstTx addl altMap = some b)
    (hvote : ∃ t ∈ b, ∃ k ∈ final_writable_accounts altMap t,
      is_vote_account k = true) :
    (send_bundle_full st now bh payer tipAcct firstTx addl altMap engines
        resp).outcome = .voteLocked ∧
    (send_bundle_full st now bh payer tipAcct firstTx addl altMap engines
        resp).contacted = [] ∧
    (send_bundle_full st now bh payer tipAcct firstTx addl altMap engines
        resp).bundle = some b := by
  obtain ⟨t, htb, k, hkmem, hkv⟩ := hvote
  have hlk : ∀ li ∈ vmsgLookups t, ∀ i ∈ li.writable_indexes, ∀ k,
      (altMap li.account_key).get? i = some k → is_vote_account k = false := by
    rcases build_bundle_members bh payer tipAcct firstTx addl altMap b hb t htb with
      ⟨tin, hok⟩ | ⟨tip, tm, _, rfl, htc⟩
    · cases tin with
      | legacy lm =>
        have : t = .legacy lm := by
          simpa [rebuild_message] using hok.symm
        subst this
        intro li hli
        simp [vmsgLookups] at hli
      | v0 m =>
        obtain ⟨p, rest, m2, _, rfl, htc⟩ := rebuild_ok_v0_inv bh altMap m t hok
        intro li hli i hi k2 hk2
        exact try_compile_no_vote_writable_lookup p _ _ bh m2 altMap
          (decompile_vote_readonly m _ _)
          (build_full_alts_addresses m altMap) htc li hli i hi k2 hk2
    · intro li hli
      rw [show vmsgLookups (.v0 tm) = tm.address_table_lookups from rfl,
        try_compile_nil_alts payer _ bh tm htc] at hli
      simp at hli
  have hguard : tx_locks_vote_account t = true :=
    final_writable_vote_implies_guard altMap t hlk k hkmem hkv
  have hbundle : bundle_locks_vote_account b = true :=
    List.any_eq_true.mpr ⟨t, htb, hguard⟩
  simp only [send_bundle_full, hgate, if_false, hb, hbundle, if_true]
  exact ⟨trivial, trivial, trivial⟩

/-- A legacy message whose writable fee-payer slot holds a vote
account. -/
def lmVote : MsgLegacy :=
  ⟨⟨1, 0, 0⟩, ["Vote111111111111111111111111111111111111111"], "oldbh", []⟩

/-- Witness for C2: a bundle whose first transaction write-locks a vote
account makes the whole send attempt return VOTE_ACCOUNT_LOCKED without
contacting any endpoint. -/
theorem vote_guard_spec_witness :
    (send_bundle_full ⟨0, fun _ => 0⟩ 0 "newbh" "P" (some "T")
        (some (.legacy lmVote)) [] (fun _ => []) ["e"]
        (fun _ => ⟨200, none, some "bid", none⟩)).outcome = .voteLocked ∧
    (send_bundle_full ⟨0, fun _ => 0⟩ 0 "newbh" "P" (some "T")
        (some (.legacy lmVote)) [] (fun _ => []) ["e"]
        (fun _ => ⟨200, none, some "bid", none⟩)).contacted = [] := by
  have h := vote_guard_spec ⟨0, fun _ => 0⟩ 0 "newbh" "P" (some "T")
    (some (.legacy lmVote)) [] (fun _ => []) ["e"]
    (fun _ => ⟨200, none, some "bid", none⟩)
    [.legacy lmVote, .v0 tipMsgC]
    (by norm_num [rate_limit_wait_seconds, pyInt])
    rfl
    ⟨.legacy lmVote, by decide, "Vote111111111111111111111111111111111111111",
      by decide, by decide⟩
  exact ⟨h.1, h.2.1⟩

/-! ### C4: decompile-recompile round trip (no lookup tables) -/

/-- `keyIdx` stays within bounds for present keys. -/
theorem keyIdx_lt_length (k : PKey) : ∀ l : List PKey, k ∈ l → keyIdx k l < l.length := by
  intro l
  induction l with
  | nil => intro h; simp at h
  | cons h t ih =>
    intro hm
    by_cases hh : h = k
    · simp [keyIdx, hh]
    · simp only [keyIdx, if_neg hh, List.length_cons]
      rcases List.mem_cons.mp hm with rfl | hmt
      · exact absurd rfl hh
      · exact Nat.succ_lt_succ (ih hmt)

/-- `getD` at `keyIdx` recovers the key. -/
theorem getD_keyIdx (k : PKey) : ∀ l : List PKey, k ∈ l → l.getD (keyIdx k l) "" = k := by
  intro l
  induction l with
  | nil => intro h; simp at h
  | cons h t ih =>
    intro hm
    by_cases hh : h = k
    · simp [keyIdx, hh]
    · simp only [keyIdx, if_neg hh]
      rcases List.mem_cons.mp hm with rfl | hmt
      · exact absurd rfl hh
      · simpa using ih hmt

/-- `keyIdx` over an append, key in the left part. -/
theorem keyIdx_append_of_mem (k : PKey) : ∀ l1 l2 : List PKey, k ∈ l1 →
    keyIdx k (l1 ++ l2) = keyIdx k l1 := by
  intro l1 l2
  induction l1 with
  | nil => intro h; simp at h
  | cons h t ih =>
    intro hm
    by_cases hh : h = k
    · simp [keyIdx, hh]
    · simp only [List.cons_append, keyIdx, if_neg hh]
      rcases List.mem_cons.mp hm with rfl | hmt
      · exact absurd rfl hh
      · exact congrArg (fun n => n + 1) (ih hmt)

/-- `keyIdx` over an append, key not in the left part. -/
theorem keyIdx_append_of_not_mem (k : PKey) : ∀ l1 l2 : List PKey, k ∉ l1 →
    keyIdx k (l1 ++ l2) = l1.length + keyIdx k l2 := by
  intro l1 l2
  induction l1 with
  | nil => intro _; simp
  | cons h t ih =>
    intro hm
    have hh : ¬ h = k := fun he => hm (by simp [he])
    simp only [List.cons_append, keyIdx, if_neg hh, List.length_cons]
    have h2 : keyIdx k (t.append l2) = t.length + keyIdx k l2 :=
      ih (fun he => hm (by simp [he]))
    omega

/-- In a duplicate-free list the index of the `i`-th key is `i`. -/
theorem keyIdx_getD_nodup : ∀ l : List PKey, l.Nodup → ∀ i < l.length,
    keyIdx (l.getD i "") l = i := by
  intro l
  induction l with
  | nil => intro _ i hi; simp at hi
  | cons h t ih =>
    intro hnd i hi
    rcases List.nodup_cons.mp hnd with ⟨hnm, hndt⟩
    cases i with
    | zero => simp [keyIdx]
    | succ i =>
      simp only [List.length_cons] at hi
      have hlt : i < t.length := by omega
      have hmem : t.getD i "" ∈ t := by
        rw [List.getD_eq_getElem t "" hlt]
        exact List.getElem_mem hlt
      have hh : ¬ h = t.getD i "" := fun he => hnm (he ▸ hmem)
      simp only [List.getD_cons_succ, keyIdx, if_neg hh]
      rw [ih hndt i hlt]

/-- A `filterMap` after a `map` that round-trips elementwise is the
identity. -/
theorem filterMap_map_id {α β : Type} (f : β → Option α) (g : α → β) :
    ∀ l : List α, (∀ x ∈ l, f (g x) = some x) → List.filterMap f (l.map g) = l := by
  intro l
  induction l with
  | nil => intro _; rfl
  | cons x t ih =>
    intro h
    simp only [List.map_cons, List.filterMap_cons, h x (by simp)]
    rw [ih (fun y hy => h y (by simp [hy]))]

/-- The four privilege sections partition the key map. -/
theorem sections_length : ∀ l : List (PKey × CKMeta),
    (l.filter (fun e => e.2.is_signer && e.2.is_writable)).length +
    (l.filter (fun e => e.2.is_signer && !e.2.is_writable)).length +
    (l.filter (fun e => !e.2.is_signer && e.2.is_writable)).length +
    (l.filter (fun e => !e.2.is_signer && !e.2.is_writable)).length = l.length := by
  intro l
  induction l with
  | nil => rfl
  | cons e t ih =>
    cases hs : e.2.is_signer <;> cases hw : e.2.is_writable <;>
      simp only [List.filter_cons, hs, hw, Bool.and_true, Bool.and_false,
        Bool.true_and, Bool.false_and, Bool.not_true, Bool.not_false,
        List.length_cons] <;> simp <;> omega

/-- Membership of a key in a filtered section, through its flags. -/
theorem mem_section_filter (l : List (PKey × CKMeta)) (hnd : (ckKeys l).Nodup)
    (p : PKey × CKMeta → Bool) (k : PKey) :
    k ∈ ckKeys (l.filter p) ↔ k ∈ ckKeys l ∧ p (k, ckLookup l k) = true := by
  constructor
  · intro h
    simp only [ckKeys, List.mem_map] at h
    obtain ⟨e, hef, rfl⟩ := h
    have hel : e ∈ l := List.mem_of_mem_filter hef
    have hp : p e = true := List.of_mem_filter hef
    have hl : ckLookup l e.1 = e.2 := ckLookup_mem l hnd e hel
    refine ⟨List.mem_map_of_mem (fun e => e.1) hel, ?_⟩
    rw [hl]
    exact hp
  · rintro ⟨hm, hp⟩
    simp only [ckKeys, List.mem_map] at hm
    obtain ⟨e, hel, rfl⟩ := hm
    have hl : ckLookup l e.1 = e.2 := ckLookup_mem l hnd e hel
    rw [hl] at hp
    have : e ∈ l.filter p := List.mem_filter.mpr ⟨hel, by
      rcases e with ⟨k1, m1⟩
      exact hp⟩
    exact List.mem_map_of_mem (fun e => e.1) this

/-- The writable-signer section of a compiled key map (first privilege
section of `try_compile`'s static layout). -/
def secWS (km : List (PKey × CKMeta)) : List (PKey × CKMeta) :=
  km.filter fun e => e.2.is_signer && e.2.is_writable

/-- The readonly-signer section. -/
def secRS (km : List (PKey × CKMeta)) : List (PKey × CKMeta) :=
  km.filter fun e => e.2.is_signer && !e.2.is_writable

/-- The writable non-signer section. -/
def secWN (km : List (PKey × CKMeta)) : List (PKey × CKMeta) :=
  km.filter fun e => !e.2.is_signer && e.2.is_writable

/-- The readonly non-signer section. -/
def secRN (km : List (PKey × CKMeta)) : List (PKey × CKMeta) :=
  km.filter fun e => !e.2.is_signer && !e.2.is_writable

/-- The static key list `try_compile` lays out from a key map. -/
def secStatics (km : List (PKey × CKMeta)) : List PKey :=
  (secWS km ++ secRS km ++ secWN km ++ secRN km).map (fun e => e.1)

/-- The header `try_compile` derives from a key map. -/
def secHeader (km : List (PKey × CKMeta)) : MsgHeader :=
  ⟨(secWS km).length + (secRS km).length, (secRS km).length, (secRN km).length⟩

/-- The static layout splits into the four per-section key lists. -/
theorem secStatics_eq (km : List (PKey × CKMeta)) :
    secStatics km = ckKeys (secWS km) ++
      (ckKeys (secRS km) ++ (ckKeys (secWN km) ++ ckKeys (secRN km))) := by
  simp [secStatics, ckKeys, List.map_append]

/-- The four privilege sections use up exactly the key map. -/
theorem secStatics_length (km : List (PKey × CKMeta)) :
    (secStatics km).length = km.length := by
  simp only [secStatics, List.length_map, List.length_append]
  have h := sections_length km
  simp only [secWS, secRS, secWN, secRN]
  omega

/-- Unfolding `isSignerIndex` to a proposition. -/
theorem isSignerIndex_iff (H : MsgHeader) (i : Nat) :
    isSignerIndex H i = true ↔ i < H.num_required_signatures := by
  simp [isSignerIndex]

/-- Unfolding `isWritableIndex` to a proposition. -/
theorem isWritableIndex_iff (H : MsgHeader) (L i : Nat) :
    isWritableIndex H L i = true ↔
      (i < H.num_required_signatures - H.num_readonly_signed_accounts ∨
        (H.num_required_signatures ≤ i ∧
          i < L - H.num_readonly_unsigned_accounts)) := by
  simp [isWritableIndex]

/-- A duplicate-free list included in another is no longer than it. -/
theorem nodup_subset_length : ∀ (l1 l2 : List PKey), l1.Nodup →
    (∀ x ∈ l1, x ∈ l2) → l1.length ≤ l2.length := by
  intro l1
  induction l1 with
  | nil => intro l2 _ _; simp
  | cons x t ih =>
    intro l2 hnd hsub
    rcases List.nodup_cons.mp hnd with ⟨hx, hndt⟩
    have hxl2 : x ∈ l2 := hsub x (by simp)
    have hsub' : ∀ y ∈ t, y ∈ l2.erase x := by
      intro y hy
      have hyx : y ≠ x := fun he => hx (he ▸ hy)
      exact (List.mem_erase_of_ne hyx).mpr (hsub y (by simp [hy]))
    have hrec := ih (l2.erase x) hndt hsub'
    have hl : (l2.erase x).length = l2.length - 1 := List.length_erase_of_mem hxl2
    have hpos : 0 < l2.length := List.length_pos.mpr (fun he => by simp [he] at hxl2)
    simp only [List.length_cons]
    omega

/-- `build_full_account_keys` of a lookup-free message: the statics and
their header-derived writability, nothing else. -/
theorem build_full_accounts_nil (m : MsgV0) (altMap : PKey → List PKey)
    (hlut : m.address_table_lookups = []) :
    build_full_accounts m altMap =
      (m.account_keys, [], (List.range m.account_keys.length).map
        (fun i => isWritableIndex m.header m.account_keys.length i)) := by
  simp only [build_full_accounts, hlut, List.foldl_nil]

/-- Position and privilege flags of a key in `try_compile`'s static
layout: the key sits in the section its merged flags select, the layout
returns it at its `keyIdx`, and the header-derived signer/writable
tests at that index reproduce the merged flags exactly. -/
theorem statics_flags (km : List (PKey × CKMeta)) (hnd : (ckKeys km).Nodup)
    (k : PKey) (hk : k ∈ ckKeys km) :
    keyIdx k (secStatics km) < (secStatics km).length ∧
    (secStatics km).getD (keyIdx k (secStatics km)) "" = k ∧
    isSignerIndex (secHeader km) (keyIdx k (secStatics km)) =
      (ckLookup km k).is_signer ∧
    isWritableIndex (secHeader km) (secStatics km).length
      (keyIdx k (secStatics km)) = (ckLookup km k).is_writable := by
  have heq := secStatics_eq km
  have hlenA : (ckKeys (secWS km)).length = (secWS km).length := by simp [ckKeys]
  have hlenB : (ckKeys (secRS km)).length = (secRS km).length := by simp [ckKeys]
  have hlenC : (ckKeys (secWN km)).length = (secWN km).length := by simp [ckKeys]
  have hlenD : (ckKeys (secRN km)).length = (secRN km).length := by simp [ckKeys]
  have hH1 : (secHeader km).num_required_signatures =
      (secWS km).length + (secRS km).length := rfl
  have hH2 : (secHeader km).num_readonly_signed_accounts = (secRS km).length := rfl
  have hH3 : (secHeader km).num_readonly_unsigned_accounts = (secRN km).length := rfl
  have hstat_len : (secStatics km).length = (secWS km).length +
      ((secRS km).length + ((secWN km).length + (secRN km).length)) := by
    rw [heq]
    simp [ckKeys]
  have hmWS : k ∈ ckKeys (secWS km) ↔
      ((ckLookup km k).is_signer && (ckLookup km k).is_writable) = true := by
    simp only [secWS, mem_section_filter km hnd, hk, true_and]
  have hmRS : k ∈ ckKeys (secRS km) ↔
      ((ckLookup km k).is_signer && !(ckLookup km k).is_writable) = true := by
    simp only [secRS, mem_section_filter km hnd, hk, true_and]
  have hmWN : k ∈ ckKeys (secWN km) ↔
      ((!(ckLookup km k).is_signer) && (ckLookup km k).is_writable) = true := by
    simp only [secWN, mem_section_filter km hnd, hk, true_and]
  have hmRN : k ∈ ckKeys (secRN km) ↔
      ((!(ckLookup km k).is_signer) && !(ckLookup km k).is_writable) = true := by
    simp only [secRN, mem_section_filter km hnd, hk, true_and]
  cases hs : (ckLookup km k).is_signer with
  | true =>
    cases hw : (ckLookup km k).is_writable with
    | true =>
      have hm : k ∈ ckKeys (secWS km) := hmWS.mpr (by rw [hs, hw]; rfl)
      have hmem : k ∈ secStatics km := by
        rw [heq]
        exact List.mem_append_left _ hm
      have hj0 : keyIdx k (ckKeys (secWS km)) < (secWS km).length :=
        hlenA ▸ keyIdx_lt_length k _ hm
      have hj : keyIdx k (secStatics km) = keyIdx k (ckKeys (secWS km)) := by
        rw [heq, keyIdx_append_of_mem k _ _ hm]
      refine ⟨?_, getD_keyIdx k _ hmem, ?_, ?_⟩
      · rw [hstat_len, hj]
        omega
      · exact (isSignerIndex_iff _ _).mpr (by rw [hH1, hj]; omega)
      · exact (isWritableIndex_iff _ _ _).mpr
          (by rw [hH1, hH2, hH3, hstat_len, hj]; omega)
    | false =>
      have hm : k ∈ ckKeys (secRS km) := hmRS.mpr (by rw [hs, hw]; rfl)
      have hnA : k ∉ ckKeys (secWS km) := fun hmm0 => by
        have h0 := hmWS.mp hmm0
        rw [hs, hw] at h0
        simp at h0
      have hmem : k ∈ secStatics km := by
        rw [heq]
        exact List.mem_append_right _ (List.mem_append_left _ hm)
      have hj0 : keyIdx k (ckKeys (secRS km)) < (secRS km).length :=
        hlenB ▸ keyIdx_lt_length k _ hm
      have hj : keyIdx k (secStatics km) =
          (secWS km).length + keyIdx k (ckKeys (secRS km)) := by
        rw [heq, keyIdx_append_of_not_mem k _ _ hnA,
          keyIdx_append_of_mem k _ _ hm, hlenA]
      refine ⟨?_, getD_keyIdx k _ hmem, ?_, ?_⟩
      · rw [hstat_len, hj]
        omega
      · exact (isSignerIndex_iff _ _).mpr (by rw [hH1, hj]; omega)
      · cases hX : isWritableIndex (secHeader km) (secStatics km).length
            (keyIdx k (secStatics km)) with
        | false => rfl
        | true =>
          exfalso
          have hiff := (isWritableIndex_iff _ _ _).mp hX
          rw [hH1, hH2, hH3, hstat_len, hj] at hiff
          omega
  | false =>
    cases hw : (ckLookup km k).is_writable with
    | true =>
      have hm : k ∈ ckKeys (secWN km) := hmWN.mpr (by rw [hs, hw]; rfl)
      have hnA : k ∉ ckKeys (secWS km) := fun hmm0 => by
        have h0 := hmWS.mp hmm0
        rw [hs, hw] at h0
        simp at h0
      have hnB : k ∉ ckKeys (secRS km) := fun hmm0 => by
        have h0 := hmRS.mp hmm0
        rw [hs, hw] at h0
        simp at h0
      have hmem : k ∈ secStatics km := by
        rw [heq]
        exact List.mem_append_right _
          (List.mem_append_right _ (List.mem_append_left _ hm))
      have hj0 : keyIdx k (ckKeys (secWN km)) < (secWN km).length :=
        hlenC ▸ keyIdx_lt_length k _ hm
      have hj : keyIdx k (secStatics km) = (secWS km).length +
          ((secRS km).length + keyIdx k (ckKeys (secWN km))) := by
        rw [heq, keyIdx_append_of_not_mem k _ _ hnA,
          keyIdx_append_of_not_mem k _ _ hnB,
          keyIdx_append_of_mem k _ _ hm, hlenA, hlenB]
      refine ⟨?_, getD_keyIdx k _ hmem, ?_, ?_⟩
      · rw [hstat_len, hj]
        omega
      · cases hX : isSignerIndex (secHeader km) (keyIdx k (secStatics km)) with
        | false => rfl
        | true =>
          exfalso
          have hiff := (isSignerIndex_iff _ _).mp hX
          rw [hH1, hj] at hiff
          omega
      · exact (isWritableIndex_iff _ _ _).mpr
          (by rw [hH1, hH2, hH3, hstat_len, hj]; omega)
    | false =>
      have hm : k ∈ ckKeys (secRN km) := hmRN.mpr (by rw [hs, hw]; rfl)
      have hnA : k ∉ ckKeys (secWS km) := fun hmm0 => by
        have h0 := hmWS.mp hmm0
        rw [hs, hw] at h0
        simp at h0
      have hnB : k ∉ ckKeys (secRS km) := fun hmm0 => by
        have h0 := hmRS.mp hmm0
        rw [hs, hw] at h0
        simp at h0
      have hnC : k ∉ ckKeys (secWN km) := fun hmm0 => by
        have h0 := hmWN.mp hmm0
        rw [hs, hw] at h0
        simp at h0
      have hmem : k ∈ secStatics km := by
        rw [heq]
        exact List.mem_append_right _ (List.mem_append_right _
          (List.mem_append_right _ hm))
      have hj0 : keyIdx k (ckKeys (secRN km)) < (secRN km).length :=
        hlenD ▸ keyIdx_lt_length k _ hm
      have hj : keyIdx k (secStatics km) = (secWS km).length +
          ((secRS km).length + ((secWN km).length +
            keyIdx k (ckKeys (secRN km)))) := by
        rw [heq, keyIdx_append_of_not_mem k _ _ hnA,
          keyIdx_append_of_not_mem k _ _ hnB,
          keyIdx_append_of_not_mem k _ _ hnC, hlenA, hlenB, hlenC]
      refine ⟨?_, getD_keyIdx k _ hmem, ?_, ?_⟩
      · rw [hstat_len, hj]
        omega
      · cases hX : isSignerIndex (secHeader km) (keyIdx k (secStatics km)) with
        | false => rfl
        | true =>
          exfalso
          have hiff := (isSignerIndex_iff _ _).mp hX
          rw [hH1, hj] at hiff
          omega
      · cases hX : isWritableIndex (secHeader km) (secStatics km).length
            (keyIdx k (secStatics km)) with
        | false => rfl
        | true =>
          exfalso
          have hiff := (isWritableIndex_iff _ _ _).mp hX
          rw [hH1, hH2, hH3, hstat_len, hj] at hiff
          omega

/-- `try_compile` with no lookup tables, evaluated: the canonical
section layout, the section-derived header, and every instruction
re-indexed against it. -/
theorem try_compile_nil_eval (payer : PKey) (instrs : List Ix) (bh : String)
    (hle : (secStatics (compile_keys payer instrs)).length ≤ 256) :
    try_compile payer instrs [] bh =
      some { header := secHeader (compile_keys payer instrs),
             account_keys := secStatics (compile_keys payer instrs),
             recent_blockhash := bh,
             instructions := instrs.map fun ix =>
               { program_id_index := keyIdx ix.program_id
                   (secStatics (compile_keys payer instrs) ++ [] ++ []),
                 accounts := ix.accounts.map fun a => keyIdx a.pubkey
                   (secStatics (compile_keys payer instrs) ++ [] ++ []),
                 data := ix.data },
             address_table_lookups := [] } := by
  have hle' : (secStatics (compile_keys payer instrs) ++ ([] : List PKey) ++
      []).length ≤ 256 := by simpa using hle
  simp only [try_compile, List.foldl_nil]
  split
  · rfl
  · next hcond => exact absurd hle' hcond

/-- Shape of every reconstructed account meta: it is the full-key entry
at some in-range index, with the header-derived signer flag and the
vote-adjusted writability at that index. -/
theorem decompile_meta_shape (m : MsgV0) (full : List PKey) (wfl : List Bool) :
    ∀ ix ∈ decompile_to_instructions m full wfl, ∀ a ∈ ix.accounts, ∃ i,
      i < full.length ∧
      a = ⟨full.getD i "",
           decide (i < m.account_keys.length) && isSignerIndex m.header i,
           if is_vote_account (full.getD i "") then false else wfl.getD i false⟩ := by
  intro ix hix a ha
  simp only [decompile_to_instructions, List.mem_filterMap] at hix
  obtain ⟨ci, hci_mem, hci⟩ := hix
  split at hci
  · simp only [Option.some.injEq] at hci
    rw [← hci] at ha
    simp only [List.mem_filterMap] at ha
    obtain ⟨i, hi_mem, hia⟩ := ha
    split at hia
    · next hilt =>
      simp only [Option.some.injEq] at hia
      exact ⟨i, hilt, hia.symm⟩
    · simp at hia
  · simp at hci

/-- Shape of every reconstructed program id: a full-key entry at an
in-range index. -/
theorem decompile_pid_shape (m : MsgV0) (full : List PKey) (wfl : List Bool) :
    ∀ ix ∈ decompile_to_instructions m full wfl, ∃ i,
      i < full.length ∧ ix.program_id = full.getD i "" := by
  intro ix hix
  simp only [decompile_to_instructions, List.mem_filterMap] at hix
  obtain ⟨ci, hci_mem, hci⟩ := hix
  split at hci
  · next hlt =>
    simp only [Option.some.injEq] at hci
    exact ⟨ci.program_id_index, hlt, by rw [← hci]⟩
  · simp at hci

/-- Over duplicate-free static keys, two reconstructed metas for the
same pubkey are identical (same index, hence same flags). -/
theorem decompile_meta_unique (m : MsgV0) (wfl : List Bool)
    (hnd : m.account_keys.Nodup)
    (ix1 : Ix) (h1 : ix1 ∈ decompile_to_instructions m m.account_keys wfl)
    (a1 : AcctMeta) (ha1 : a1 ∈ ix1.accounts)
    (ix2 : Ix) (h2 : ix2 ∈ decompile_to_instructions m m.account_keys wfl)
    (a2 : AcctMeta) (ha2 : a2 ∈ ix2.accounts)
    (hpk : a1.pubkey = a2.pubkey) : a1 = a2 := by
  obtain ⟨i1, hi1, he1⟩ := decompile_meta_shape m m.account_keys wfl ix1 h1 a1 ha1
  obtain ⟨i2, hi2, he2⟩ := decompile_meta_shape m m.account_keys wfl ix2 h2 a2 ha2
  have hk12 : m.account_keys.getD i1 "" = m.account_keys.getD i2 "" := by
    have e1 : a1.pubkey = m.account_keys.getD i1 "" := by rw [he1]
    have e2 : a2.pubkey = m.account_keys.getD i2 "" := by rw [he2]
    rw [← e1, ← e2, hpk]
  have hidx : i1 = i2 := by
    have q1 := keyIdx_getD_nodup m.account_keys hnd i1 hi1
    have q2 := keyIdx_getD_nodup m.account_keys hnd i2 hi2
    rw [hk12] at q1
    omega
  rw [he1, he2, hidx]

/-- At any occurrence of a pubkey in the reconstructed instructions,
the OR of its signer (resp. writable) flags over all occurrences equals
that occurrence's flag: over duplicate-free statics all occurrences
agree. -/
theorem decompile_occ_flags (m : MsgV0) (wfl : List Bool)
    (hnd : m.account_keys.Nodup)
    (ix : Ix) (hix : ix ∈ decompile_to_instructions m m.account_keys wfl)
    (a : AcctMeta) (ha : a ∈ ix.accounts) :
    sigAny (decompile_to_instructions m m.account_keys wfl) a.pubkey = a.is_signer ∧
    wriAny (decompile_to_instructions m m.account_keys wfl) a.pubkey = a.is_writable := by
  constructor
  · cases hs : a.is_signer with
    | false =>
      cases hX : sigAny (decompile_to_instructions m m.account_keys wfl) a.pubkey with
      | false => rfl
      | true =>
        exfalso
        simp only [sigAny, metaSigAny, List.any_eq_true, Bool.and_eq_true,
          decide_eq_true_eq] at hX
        obtain ⟨ix', hix', a', ha', hpk', hs'⟩ := hX
        rw [decompile_meta_unique m wfl hnd ix' hix' a' ha' ix hix a ha hpk'] at hs'
        rw [hs] at hs'
        simp at hs'
    | true =>
      simp only [sigAny, metaSigAny, List.any_eq_true, Bool.and_eq_true,
        decide_eq_true_eq]
      exact ⟨ix, hix, a, ha, rfl, hs⟩
  · cases hs : a.is_writable with
    | false =>
      cases hX : wriAny (decompile_to_instructions m m.account_keys wfl) a.pubkey with
      | false => rfl
      | true =>
        exfalso
        simp only [wriAny, metaWriAny, List.any_eq_true, Bool.and_eq_true,
          decide_eq_true_eq] at hX
        obtain ⟨ix', hix', a', ha', hpk', hs'⟩ := hX
        rw [decompile_meta_unique m wfl hnd ix' hix' a' ha' ix hix a ha hpk'] at hs'
        rw [hs] at hs'
        simp at hs'
    | true =>
      simp only [wriAny, metaWriAny, List.any_eq_true, Bool.and_eq_true,
        decide_eq_true_eq]
      exact ⟨ix, hix, a, ha, rfl, hs⟩

/-- The fee payer's reconstructed meta is a signer, and writable unless
it is a vote account: the payer is static index 0, and the header of a
compiled message makes index 0 a writable signer. -/
theorem decompile_payer_meta (m : MsgV0) (wfl : List Bool)
    (hne : m.account_keys ≠ []) (hnd : m.account_keys.Nodup)
    (hsig : m.header.num_readonly_signed_accounts < m.header.num_required_signatures)
    (hw0 : wfl.getD 0 false = isWritableIndex m.header m.account_keys.length 0)
    (ix : Ix) (hix : ix ∈ decompile_to_instructions m m.account_keys wfl)
    (a : AcctMeta) (ha : a ∈ ix.accounts)
    (hp : a.pubkey = m.account_keys.headD "") :
    a.is_signer = true ∧
    (is_vote_account a.pubkey = false → a.is_writable = true) := by
  obtain ⟨i, hi, he⟩ := decompile_meta_shape m m.account_keys wfl ix hix a ha
  have hlen0 : 0 < m.account_keys.length := List.length_pos.mpr hne
  have hh0 : m.account_keys.headD "" = m.account_keys.getD 0 "" := by
    cases hK : m.account_keys with
    | nil => exact absurd hK hne
    | cons x t => rfl
  have hpk : a.pubkey = m.account_keys.getD i "" := by rw [he]
  have hi0 : i = 0 := by
    have q1 := keyIdx_getD_nodup m.account_keys hnd i hi
    have q2 := keyIdx_getD_nodup m.account_keys hnd 0 hlen0
    have h3 : m.account_keys.getD i "" = m.account_keys.getD 0 "" := by
      rw [← hpk, hp, hh0]
    rw [h3] at q1
    omega
  subst hi0
  constructor
  · rw [he]
    show (decide (0 < m.account_keys.length) && isSignerIndex m.header 0) = true
    have hnrs : 0 < m.header.num_required_signatures := by omega
    simp [isSignerIndex, hlen0, hnrs]
  · intro hv
    rw [hpk] at hv
    rw [he]
    show (if is_vote_account (m.account_keys.getD 0 "") then false
          else wfl.getD 0 false) = true
    rw [hv]
    simp only [Bool.false_eq_true, if_false]
    rw [hw0]
    exact (isWritableIndex_iff _ _ _).mpr (Or.inl (by omega))

/-- Recompiling a list of instructions whose metas have per-pubkey
consistent flags (as decompiled instruction lists do), whose vote metas
are readonly, and whose payer metas are writable signers, then
decompiling the produced lookup-free message, restores the instruction
list exactly. -/
theorem try_compile_roundtrip (payer : PKey) (instrs : List Ix) (bh : String)
    (altMap2 : PKey → List PKey)
    (hle : (secStatics (compile_keys payer instrs)).length ≤ 256)
    (hocc : ∀ ix ∈ instrs, ∀ a ∈ ix.accounts,
      sigAny instrs a.pubkey = a.is_signer ∧
      wriAny instrs a.pubkey = a.is_writable)
    (hvote : ∀ ix ∈ instrs, ∀ a ∈ ix.accounts,
      is_vote_account a.pubkey = true → a.is_writable = false)
    (hpay : ∀ ix ∈ instrs, ∀ a ∈ ix.accounts, a.pubkey = payer →
      a.is_signer = true ∧
      (is_vote_account a.pubkey = false → a.is_writable = true)) :
    ∃ m2 : MsgV0, try_compile payer instrs [] bh = some m2 ∧
      m2.recent_blockhash = bh ∧
      decompile_to_instructions m2 (build_full_accounts m2 altMap2).1
        (build_full_accounts m2 altMap2).2.2 = instrs := by
  have hndk : (ckKeys (compile_keys payer instrs)).Nodup :=
    ckKeys_compile_keys_nodup payer instrs
  refine ⟨_, try_compile_nil_eval payer instrs bh hle, rfl, ?_⟩
  rw [build_full_accounts_nil _ altMap2 rfl]
  dsimp only
  simp only [decompile_to_instructions]
  refine filterMap_map_id _ _ instrs fun ix hix => ?_
  dsimp only
  simp only [List.append_nil]
  have hpidmem : ix.program_id ∈ ckKeys (compile_keys payer instrs) :=
    (ckKeys_compile_keys payer instrs ix.program_id).mpr
      (Or.inr ⟨ix, hix, Or.inl rfl⟩)
  obtain ⟨hplt, hpget, _, _⟩ := statics_flags _ hndk _ hpidmem
  rw [if_pos hplt, hpget]
  have hacc : (ix.accounts.map fun a =>
      keyIdx a.pubkey (secStatics (compile_keys payer instrs))).filterMap
        (fun i => if i < (secStatics (compile_keys payer instrs)).length then
          some { pubkey := (secStatics (compile_keys payer instrs)).getD i "",
                 is_signer :=
                   decide (i < (secStatics (compile_keys payer instrs)).length) &&
                     isSignerIndex (secHeader (compile_keys payer instrs)) i,
                 is_writable :=
                   if is_vote_account
                       ((secStatics (compile_keys payer instrs)).getD i "") then
                     false
                   else
                     ((List.range
                       (secStatics (compile_keys payer instrs)).length).map
                       (fun j => isWritableIndex
                         (secHeader (compile_keys payer instrs))
                         (secStatics (compile_keys payer instrs)).length j)).getD
                       i false }
        else none) = ix.accounts := by
    refine filterMap_map_id _ _ ix.accounts fun a ha => ?_
    dsimp only
    have hamem : a.pubkey ∈ ckKeys (compile_keys payer instrs) :=
      (ckKeys_compile_keys payer instrs a.pubkey).mpr
        (Or.inr ⟨ix, hix, Or.inr ⟨a, ha, rfl⟩⟩)
    obtain ⟨hjl, hjget, hjsig, hjwri⟩ := statics_flags _ hndk _ hamem
    rw [if_pos hjl, hjget]
    have hd : decide (keyIdx a.pubkey (secStatics (compile_keys payer instrs)) <
        (secStatics (compile_keys payer instrs)).length) = true :=
      decide_eq_true hjl
    rw [hd, Bool.true_and]
    simp only [getD_map_range _ _ _ _ hjl]
    rw [hjsig, hjwri, ckLookup_compile_keys payer instrs a.pubkey]
    dsimp only
    obtain ⟨hsA, hwA⟩ := hocc ix hix a ha
    have hS : (decide (a.pubkey = payer) || sigAny instrs a.pubkey) =
        a.is_signer := by
      rw [hsA]
      by_cases hp : a.pubkey = payer
      · rw [(hpay ix hix a ha hp).1]
        simp
      · simp [hp]
    have hW : (if is_vote_account a.pubkey then false
        else decide (a.pubkey = payer) || wriAny instrs a.pubkey) =
        a.is_writable := by
      rw [hwA]
      cases hv : is_vote_account a.pubkey with
      | true =>
        rw [if_pos rfl]
        exact (hvote ix hix a ha hv).symm
      | false =>
        rw [if_neg (by simp)]
        by_cases hp : a.pubkey = payer
        · rw [(hpay ix hix a ha hp).2 hv]
          simp
        · simp [hp]
    rw [hS, hW]
  rw [hacc]

/-- C4: for every well-formed V0 message with no lookup-table
references (duplicate-free nonempty static keys, a header whose
readonly-signed count is below its required-signature count as every
compiled message has, at most 256 keys), decompiling it to plain
instructions — as `_rebuild_message_with_blockhash_async` does — and
recompiling those instructions with the same fee payer (static key 0),
an empty lookup-table set and the same recency token succeeds, keeps
that token, and produces a message that decompiles back to exactly the
same instruction list: decompile∘recompile is the identity on the
instruction list when the token does not change. -/
theorem decompile_recompile_roundtrip (m : MsgV0) (altMap altMap2 : PKey → List PKey)
    (hne : m.account_keys ≠ [])
    (hnd : m.account_keys.Nodup)
    (hsig : m.header.num_readonly_signed_accounts <
      m.header.num_required_signatures)
    (hlen : m.account_keys.length ≤ 256)
    (hlut : m.address_table_lookups = []) :
    ∃ m2 : MsgV0,
      try_compile (m.account_keys.headD "")
          (decompile_to_instructions m (build_full_accounts m altMap).1
            (build_full_accounts m altMap).2.2) [] m.recent_blockhash =
        some m2 ∧
      m2.recent_blockhash = m.recent_blockhash ∧
      decompile_to_instructions m2 (build_full_accounts m2 altMap2).1
          (build_full_accounts m2 altMap2).2.2 =
        decompile_to_instructions m (build_full_accounts m altMap).1
          (build_full_accounts m altMap).2.2 := by
  rw [build_full_accounts_nil m altMap hlut]
  dsimp only
  apply try_compile_roundtrip
  · rw [secStatics_length]
    have h1 : (compile_keys (m.account_keys.headD "")
        (decompile_to_instructions m m.account_keys
          ((List.range m.account_keys.length).map
            (fun i => isWritableIndex m.header m.account_keys.length i)))).length =
        (ckKeys (compile_keys (m.account_keys.headD "")
          (decompile_to_instructions m m.account_keys
            ((List.range m.account_keys.length).map
              (fun i => isWritableIndex m.header m.account_keys.length i))))).length := by
      simp [ckKeys]
    have h2 : (ckKeys (compile_keys (m.account_keys.headD "")
        (decompile_to_instructions m m.account_keys
          ((List.range m.account_keys.length).map
            (fun i => isWritableIndex m.header m.account_keys.length i))))).length ≤
        m.account_keys.length := by
      apply nodup_subset_length _ _ (ckKeys_compile_keys_nodup _ _)
      intro q hq
      rcases (ckKeys_compile_keys _ _ q).mp hq with hqp | ⟨ix, hix, hcase⟩
      · subst hqp
        cases hK : m.account_keys with
        | nil => exact absurd hK hne
        | cons x t => simp
      · rcases hcase with hpid | ⟨a, ha, hak⟩
        · obtain ⟨i, hi, hpe⟩ := decompile_pid_shape m m.account_keys _ ix hix
          rw [← hpid, hpe, List.getD_eq_getElem _ _ hi]
          exact List.getElem_mem hi
        · obtain ⟨i, hi, hae⟩ := decompile_meta_shape m m.account_keys _ ix hix a ha
          have hpk : a.pubkey = m.account_keys.getD i "" := by rw [hae]
          rw [← hak, hpk, List.getD_eq_getElem _ _ hi]
          exact List.getElem_mem hi
    omega
  · intro ix hix a ha
    exact decompile_occ_flags m _ hnd ix hix a ha
  · intro ix hix a ha hv
    exact decompile_vote_readonly m m.account_keys _ ix hix a ha hv
  · intro ix hix a ha hp
    refine decompile_payer_meta m _ hne hnd hsig ?_ ix hix a ha hp
    exact getD_map_range _ _ _ _ (List.length_pos.mpr hne)

/-- A small compiled message: payer `p` (writable signer), `q` a
writable non-signer, program `g` readonly non-signer, one instruction
touching `p` and `q`. -/
def demoRtMsg : MsgV0 := ⟨⟨1, 0, 1⟩, ["p", "q", "g"], "bh", [⟨2, [0, 1], [5]⟩], []⟩

/-- C4 witness: the round trip at a concrete lookup-free message. -/
theorem decompile_recompile_roundtrip_witness :
    (demoRtMsg.account_keys ≠ [] ∧ demoRtMsg.account_keys.Nodup ∧
      demoRtMsg.header.num_readonly_signed_accounts <
        demoRtMsg.header.num_required_signatures ∧
      demoRtMsg.account_keys.length ≤ 256 ∧
      demoRtMsg.address_table_lookups = []) ∧
    ∃ m2 : MsgV0,
      try_compile (demoRtMsg.account_keys.headD "")
          (decompile_to_instructions demoRtMsg
            (build_full_accounts demoRtMsg (fun _ => [])).1
            (build_full_accounts demoRtMsg (fun _ => [])).2.2) []
          demoRtMsg.recent_blockhash = some m2 ∧
      m2.recent_blockhash = demoRtMsg.recent_blockhash ∧
      decompile_to_instructions m2 (build_full_accounts m2 (fun _ => [])).1
          (build_full_accounts m2 (fun _ => [])).2.2 =
        decompile_to_instructions demoRtMsg
          (build_full_accounts demoRtMsg (fun _ => [])).1
          (build_full_accounts demoRtMsg (fun _ => [])).2.2 :=
  ⟨⟨by decide, by decide, by decide, by decide, rfl⟩,
   decompile_recompile_roundtrip demoRtMsg (fun _ => []) (fun _ => [])
     (by decide) (by decide) (by decide) (by decide) rfl⟩
